import Mathlib

/-!
# Maritime VRP: master-problem oracle and route nodes

A shallow embedding of `src/masterproblem/mp_solver.cpp` (`MPSolver::solve`,
`solve_lp`, `solve_mip`, `should_row_have_equality`) and of `base/node.cpp`.

Modelling conventions.
* `int` values are integers of `ℤ`; every value the code computes is bounded by
  `2 * num_ports`, so machine overflow is not modelled.
* `double`/`float` quantities (penalties, demands, coefficients, bounds, solver
  values) are exact rationals; `IloInfinity` is a symbolic infinite bound.
* A `std::shared_ptr<Port>` is an address together with its pointee; comparing
  two pointers compares the addresses only.
* A read of a `std::vector` outside `[0, size)` and a failed `assert` have no
  defined result: they are the failures `out_of_bounds` and `assertion_failed`.
* The CPLEX call is an oracle mapping the built model to an outcome.
-/

namespace mvrp

/-! ## Failures -/

/-- The ways a call can end without a value. -/
inductive Failure where
  | out_of_bounds
  | assertion_failed
  | runtime_error (what : String)
  deriving DecidableEq, Repr

/-! ## Data model -/

/-- Modelled from the spec: the class `Port` (`base/port.h`) is declared outside the
sources; the spec gives it "identity, pickup demand, delivery demand, pickup penalty,
delivery penalty". The field names are those the sources read; the identity is the address
held by the pointer to the port. -/
structure Port where
  pickup_demand : ℚ
  delivery_demand : ℚ
  pickup_penalty : ℚ
  delivery_penalty : ℚ
  deriving DecidableEq

/-- A `std::shared_ptr<Port>`: the address held and the object it points to. -/
structure PortPtr where
  addr : Nat
  obj : Port
  deriving DecidableEq

/-- Modelled from the spec: the enumeration `PortType` is declared outside the sources;
the spec's flag is "pickup_or_delivery", and `mp_solver.cpp` names the three enumerators
`PICKUP`, `DELIVERY` and `BOTH`. -/
inductive PortType where
  | PICKUP
  | DELIVERY
  | BOTH
  deriving DecidableEq, Repr

/-- Modelled from the spec: `PortWithType` is declared outside the sources; the spec gives
it as the pair `(port, pickup_or_delivery)`, and line 167 compares its values with
`std::make_pair(port, pu)` for a raw `Port*`, here the address. -/
abbrev PortWithType := Nat × PortType

/-- Modelled from the spec: the class `VesselClass` is declared outside the sources; the
spec gives it "identity, fleet size bound". A `std::shared_ptr<VesselClass>` is the address
held and the field `num_vessels` read at line 36. -/
structure VesselClassPtr where
  addr : Nat
  num_vessels : Int
  deriving DecidableEq

/-- Modelled from the spec: the problem data (`base/problem.h`) is declared outside the
sources; the spec's loader "supplies the immutable Port list, VesselClass list, and port
count/class count used to size rows". The field names are those read through `prob->data`. -/
structure ProblemData where
  ports : List PortPtr
  num_ports : Int
  vessel_classes : List VesselClassPtr
  num_vessel_classes : Int

/-- Modelled from the spec: the class `Column` is declared outside the sources; the spec
gives it an objective coefficient, a coefficient vector indexed by port row and one indexed
by vessel-class row. The field names are those read at lines 41-48. -/
structure Column where
  obj_coeff : ℚ
  port_coeff : List ℚ
  vc_coeff : List ℚ
  deriving DecidableEq

/-- Modelled from the spec: `ColumnPool` is declared outside the sources; the spec gives it
as "an ordered collection of Columns", here the columns in iteration order. -/
abbrev ColumnPool := List Column

/-! ## Vectors and counting loops -/

/-- The read `v[i]` of a `std::vector`, defined only for `0 ≤ i < v.size()`. -/
def vec_at {α : Type} (v : List α) (i : Int) : Except Failure α :=
  if 0 ≤ i then
    match v.get? i.toNat with
    | some a => .ok a
    | none => .error .out_of_bounds
  else .error .out_of_bounds

/-- The integers `lo, lo + 1, ...`, `count` of them. -/
def int_seq : Int → Nat → List Int
  | _, 0 => []
  | lo, k + 1 => lo :: int_seq (lo + 1) k

/-- The values taken by `i` in `for (i = lo; i < hi; i++)`. -/
def for_range (lo hi : Int) : List Int := int_seq lo (hi - lo).toNat

/-! ## `MPSolver::should_row_have_equality` -/

/-- The function `MPSolver::should_row_have_equality` (mp_solver.cpp, lines 149-168). -/
def should_row_have_equality (prob : ProblemData) (row : Int)
    (ports_with_equality : List PortWithType) : Except Failure Bool :=
  let n := prob.num_ports
  if ¬ (row ≥ 1) then .error .assertion_failed
  else if ¬ (row ≤ 2 * (n - 1)) then .error .assertion_failed
  else
    let port_id := row - 1
    let split : PortType × Int :=
      if port_id > n then (PortType.DELIVERY, port_id - (n - 1))
      else (PortType.PICKUP, port_id)
    match vec_at prob.ports split.2 with
    | .error e => .error e
    | .ok port => .ok (decide ((port.addr, split.1) ∈ ports_with_equality))

/-! ## The model handed to the solver -/

/-- An `IloNum` used as a bound: a finite number or plus/minus `IloInfinity`. -/
inductive IloNum where
  | neg_infinity
  | fin (x : ℚ)
  | infinity
  deriving DecidableEq

/-- An `IloRange(env, lb, ub)`: a row with a lower and an upper bound. -/
structure IloRange where
  lb : IloNum
  ub : IloNum
  deriving DecidableEq

/-- The variable types `IloNumVar::Float` and `IloNumVar::Bool`. -/
inductive VarType where
  | Float
  | Bool
  deriving DecidableEq, Repr

/-- An `IloNumColumn`: the objective coefficient and the (row index, coefficient)
entries added to the port rows and to the vessel-class rows, in the order added. -/
structure IloNumColumn where
  obj_coeff : ℚ
  port_entries : List (Int × ℚ)
  vc_entries : List (Int × ℚ)
  deriving DecidableEq

/-- An `IloNumVar(column, lb, ub, type, name)`. -/
structure IloNumVar where
  column : IloNumColumn
  lb : IloNum
  ub : IloNum
  type : VarType
  name : String
  deriving DecidableEq

/-- The `IloModel` after `model.add(obj); model.add(port_constr); model.add(vc_constr)`. -/
structure IloModel where
  obj_constant : ℚ
  var : List IloNumVar
  port_constr : List IloRange
  vc_constr : List IloRange
  deriving DecidableEq

/-! ## `MPSolver::solve`: building the model -/

/-- Lines 14-17: the sum of all penalties, accumulated port by port from `0.0`. -/
def all_penalties (prob : ProblemData) : ℚ :=
  prob.ports.foldl (fun acc p => acc + (p.obj.pickup_penalty + p.obj.delivery_penalty)) 0

/-- Body of the loop of lines 31-33, run over the given values of `i`. -/
def port_constr_loop (prob : ProblemData) (ports_with_equality : List PortWithType) :
    List Int → Except Failure (List IloRange)
  | [] => .ok []
  | i :: rest =>
    match should_row_have_equality prob i ports_with_equality with
    | .error e => .error e
    | .ok b =>
      match port_constr_loop prob ports_with_equality rest with
      | .error e => .error e
      | .ok rows => .ok (IloRange.mk (if b then IloNum.fin 1 else IloNum.neg_infinity) (IloNum.fin 1) :: rows)

/-- Lines 31-33: `for (i = 1; i <= 2 * (np - 1); i++) port_constr.add(...)`. -/
def build_port_constr (prob : ProblemData) (ports_with_equality : List PortWithType) :
    Except Failure (List IloRange) :=
  port_constr_loop prob ports_with_equality (for_range 1 (2 * (prob.num_ports - 1) + 1))

/-- Body of the loop of lines 35-37, run over the given values of `i`. -/
def vc_constr_loop (prob : ProblemData) : List Int → Except Failure (List IloRange)
  | [] => .ok []
  | i :: rest =>
    match vec_at prob.vessel_classes i with
    | .error e => .error e
    | .ok vc =>
      match vc_constr_loop prob rest with
      | .error e => .error e
      | .ok rows => .ok (IloRange.mk IloNum.neg_infinity (IloNum.fin vc.num_vessels) :: rows)

/-- Lines 35-37: `for (i = 0; i < nv; i++) vc_constr.add(...)`. -/
def build_vc_constr (prob : ProblemData) : Except Failure (List IloRange) :=
  vc_constr_loop prob (for_range 0 prob.num_vessel_classes)

/-- The two (row index, coefficient index) pairs of one pass of the loop of lines
43-46: first the pickup statement, then the delivery statement. -/
def port_coeff_indices (np i : Int) : List (Int × Int) :=
  [(i - 1, i - 1), (np - 1 + i - 1, np - 1 + i - 1)]

/-- One statement `ilo_c += port_constr[r](cit->port_coeff[c])`. -/
def add_port_entry (port_constr : List IloRange) (col : Column) (rc : Int × Int) :
    Except Failure (Int × ℚ) :=
  match vec_at port_constr rc.1 with
  | .error e => .error e
  | .ok _ =>
    match vec_at col.port_coeff rc.2 with
    | .error e => .error e
    | .ok c => .ok (rc.1, c)

/-- The statements of the given (row, coefficient) index pairs, in order. -/
def add_port_entries (port_constr : List IloRange) (col : Column) :
    List (Int × Int) → Except Failure (List (Int × ℚ))
  | [] => .ok []
  | rc :: rest =>
    match add_port_entry port_constr col rc with
    | .error e => .error e
    | .ok entry =>
      match add_port_entries port_constr col rest with
      | .error e => .error e
      | .ok entries => .ok (entry :: entries)

/-- All (row index, coefficient index) pairs of the loop `for (i = 1; i < np; i++)`
of lines 43-46, in execution order. -/
def port_coeff_loop (np : Int) : List (Int × Int) :=
  (for_range 1 np).flatMap (port_coeff_indices np)

/-- Body of the loop of lines 47-49, run over the given values of `i`. -/
def vc_entries_loop (vc_constr : List IloRange) (col : Column) :
    List Int → Except Failure (List (Int × ℚ))
  | [] => .ok []
  | i :: rest =>
    match vec_at vc_constr i with
    | .error e => .error e
    | .ok _ =>
      match vec_at col.vc_coeff i with
      | .error e => .error e
      | .ok c =>
        match vc_entries_loop vc_constr col rest with
        | .error e => .error e
        | .ok entries => .ok ((i, c) :: entries)

/-- Lines 41-49: the `IloNumColumn` of one pool column. -/
def build_column (prob : ProblemData) (port_constr vc_constr : List IloRange) (col : Column) :
    Except Failure IloNumColumn :=
  match add_port_entries port_constr col (port_coeff_loop prob.num_ports) with
  | .error e => .error e
  | .ok pe =>
    match vc_entries_loop vc_constr col (for_range 0 prob.num_vessel_classes) with
    | .error e => .error e
    | .ok ve => .ok (IloNumColumn.mk col.obj_coeff pe ve)

/-- Lines 39-54: the loop over the pool; `col_n` is the running column counter. -/
def build_vars (prob : ProblemData) (port_constr vc_constr : List IloRange) (linear : Bool) :
    Nat → List Column → Except Failure (List IloNumVar)
  | _, [] => .ok []
  | col_n, col :: rest =>
    match build_column prob port_constr vc_constr col with
    | .error e => .error e
    | .ok ilo_c =>
      match build_vars prob port_constr vc_constr linear (col_n + 1) rest with
      | .error e => .error e
      | .ok vs =>
        .ok (IloNumVar.mk ilo_c (IloNum.fin 0) IloNum.infinity
              (if linear then VarType.Float else VarType.Bool)
              ("theta_" ++ toString col_n) :: vs)

/-- Lines 13-58 of `MPSolver::solve`: the model handed to `IloCplex`. -/
def build_model (prob : ProblemData) (pool : ColumnPool)
    (ports_with_equality : List PortWithType) (linear : Bool) : Except Failure IloModel :=
  match build_port_constr prob ports_with_equality with
  | .error e => .error e
  | .ok port_constr =>
    match build_vc_constr prob with
    | .error e => .error e
    | .ok vc_constr =>
      match build_vars prob port_constr vc_constr linear 0 pool with
      | .error e => .error e
      | .ok var => .ok (IloModel.mk (all_penalties prob) var port_constr vc_constr)

/-! ## Solver semantics of a model -/

/-- The lower bound `b` admits the value `v`. -/
def IloNum.below (b : IloNum) (v : ℚ) : Prop :=
  match b with
  | .neg_infinity => True
  | .fin x => x ≤ v
  | .infinity => False

/-- The upper bound `b` admits the value `v`. -/
def IloNum.above (b : IloNum) (v : ℚ) : Prop :=
  match b with
  | .neg_infinity => False
  | .fin x => v ≤ x
  | .infinity => True

instance (b : IloNum) (v : ℚ) : Decidable (b.below v) := by
  cases b <;> simp only [IloNum.below] <;> infer_instance

instance (b : IloNum) (v : ℚ) : Decidable (b.above v) := by
  cases b <;> simp only [IloNum.above] <;> infer_instance

/-- The row `lb ≤ expr ≤ ub` holds when its expression has the value `v`. -/
def IloRange.holds (r : IloRange) (v : ℚ) : Prop := r.lb.below v ∧ r.ub.above v

instance (r : IloRange) (v : ℚ) : Decidable (r.holds v) := by
  unfold IloRange.holds; infer_instance

/-- The value `t` is admitted by the variable: within its bounds, and 0 or 1 for a
`Bool` variable. -/
def IloNumVar.admits (v : IloNumVar) (t : ℚ) : Prop :=
  v.lb.below t ∧ v.ub.above t ∧ (v.type = VarType.Bool → t = 0 ∨ t = 1)

instance (v : IloNumVar) (t : ℚ) : Decidable (v.admits t) := by
  unfold IloNumVar.admits; infer_instance

/-- Total coefficient a column received on row `k`. -/
def entry_sum (entries : List (Int × ℚ)) (k : Int) : ℚ :=
  ((entries.filter (fun e => decide (e.1 = k))).map (fun e => e.2)).sum

/-- Value of the expression of port row `k` under the assignment `theta`. -/
def port_activity (m : IloModel) (theta : List ℚ) (k : Nat) : ℚ :=
  (List.zipWith (fun v t => entry_sum v.column.port_entries k * t) m.var theta).sum

/-- Value of the expression of vessel-class row `k` under the assignment `theta`. -/
def vc_activity (m : IloModel) (theta : List ℚ) (k : Nat) : ℚ :=
  (List.zipWith (fun v t => entry_sum v.column.vc_entries k * t) m.var theta).sum

/-- Value of the objective under the assignment `theta`. -/
def objective_value (m : IloModel) (theta : List ℚ) : ℚ :=
  m.obj_constant + (List.zipWith (fun v t => v.column.obj_coeff * t) m.var theta).sum

/-- The assignment `theta` (one value per variable, in column order) satisfies every
variable domain and every row of the model. -/
def feasible (m : IloModel) (theta : List ℚ) : Prop :=
  theta.length = m.var.length ∧
  (∀ j, (h : j < m.var.length) → (h2 : j < theta.length) →
      (m.var.get ⟨j, h⟩).admits (theta.get ⟨j, h2⟩)) ∧
  (∀ k, (h : k < m.port_constr.length) →
      (m.port_constr.get ⟨k, h⟩).holds (port_activity m theta k)) ∧
  (∀ k, (h : k < m.vc_constr.length) →
      (m.vc_constr.get ⟨k, h⟩).holds (vc_activity m theta k))

instance (m : IloModel) (theta : List ℚ) : Decidable (feasible m theta) := by
  unfold feasible; infer_instance

/-! ## The solver oracle and `MPSolver::solve` -/

/-- What the calling code reads from a solved `IloCplex`: `getObjValue()`,
`getDuals(_, port_constr)`, `getDuals(_, vc_constr)` and `getValues(_, var)`. -/
structure IloCplex where
  obj_value : ℚ
  port_duals : List ℚ
  vc_duals : List ℚ
  values : List ℚ
  deriving DecidableEq

/-- Outcome of `cplex.solve()`: it returns its `IloBool`, or throws an `IloException`. -/
inductive CplexOutcome where
  | returned (solved : Bool) (cplex : IloCplex)
  | raised (e : String)
  deriving DecidableEq

/-- The tuple `IloData` returned by `MPSolver::solve` (the environment is not modelled). -/
structure IloData where
  var : List IloNumVar
  port_constr : List IloRange
  vc_constr : List IloRange
  cplex : IloCplex
  deriving DecidableEq

/-- The function `MPSolver::solve` (lines 12-77); `oracle` stands for `cplex.solve()`. -/
def solve (prob : ProblemData) (oracle : IloModel → CplexOutcome) (pool : ColumnPool)
    (ports_with_equality : List PortWithType) (linear : Bool) : Except Failure IloData :=
  match build_model prob pool ports_with_equality linear with
  | .error e => .error e
  | .ok model =>
    match oracle model with
    | .raised _ => .error (.runtime_error "Infeasible problem!")
    | .returned solved cplex =>
      if !solved then .error (.runtime_error "Infeasible problem!")
      else .ok (IloData.mk model.var model.port_constr model.vc_constr cplex)

/-! ## `MPSolver::solve_lp` and `MPSolver::solve_mip` -/

/-- Modelled from the spec: the types `PortDuals` and `VcDuals` are declared outside the
sources; the spec calls them "a mapping from port to a pair of dual prices" and "a mapping
from vessel class to its capacity-row dual". A map keyed by a shared pointer is a list of
(address, value) entries with at most one entry per address. -/
abbrev PtrMap (V : Type) := List (Nat × V)

/-- The call `m.emplace(key, v)`: inserts only when no entry has the key. -/
def PtrMap.emplace {V : Type} (m : PtrMap V) (key : Nat) (v : V) : PtrMap V :=
  if m.any (fun e => decide (e.1 = key)) then m else m ++ [(key, v)]

/-- The value stored under `key`, if any. -/
def PtrMap.find {V : Type} (m : PtrMap V) (key : Nat) : Option V :=
  (List.find? (fun e => decide (e.1 = key)) m).map (fun e => e.2)

/-- Body of the loop of lines 97-100, run over the given values of `i`. -/
def port_duals_loop (prob : ProblemData) (values : List ℚ) :
    List Int → PtrMap (ℚ × ℚ) → Except Failure (PtrMap (ℚ × ℚ))
  | [], port_duals => .ok port_duals
  | i :: rest, port_duals =>
    match vec_at prob.ports i with
    | .error e => .error e
    | .ok p =>
      match vec_at values (i - 1) with
      | .error e => .error e
      | .ok a =>
        match vec_at values (prob.num_ports - 1 + i - 1) with
        | .error e => .error e
        | .ok b => port_duals_loop prob values rest (port_duals.emplace p.addr (a, b))

/-- Lines 96-100 of `solve_lp`: the port-dual map built from the array `values`. -/
def extract_port_duals (prob : ProblemData) (values : List ℚ) :
    Except Failure (PtrMap (ℚ × ℚ)) :=
  port_duals_loop prob values (for_range 1 ((values.length : Int) / 2 + 1)) []

/-- Body of the loop of lines 105-108, run over the given values of `i`. -/
def vc_duals_loop (prob : ProblemData) (values : List ℚ) :
    List Int → PtrMap ℚ → Except Failure (PtrMap ℚ)
  | [], vc_duals => .ok vc_duals
  | i :: rest, vc_duals =>
    match vec_at prob.vessel_classes i with
    | .error e => .error e
    | .ok vc =>
      match vec_at values i with
      | .error e => .error e
      | .ok d => vc_duals_loop prob values rest (vc_duals.emplace vc.addr d)

/-- Modelled from the spec: `MPLinearSolution` is declared outside the sources; the spec
gives it "objective value, a mapping from port to a pair of dual prices, a mapping from
vessel class to its capacity-row dual, and the primal values of all column variables", the
order of the constructor arguments at line 120. -/
structure MPLinearSolution where
  obj_value : ℚ
  port_duals : PtrMap (ℚ × ℚ)
  vc_duals : PtrMap ℚ
  var_values : List ℚ
  deriving DecidableEq

/-- Modelled from the spec: `MPIntegerSolution` is declared outside the sources; the spec
gives it "objective value and primal 0/1 values of all column variables", the order of the
constructor arguments at line 146. -/
structure MPIntegerSolution where
  obj_value : ℚ
  var_values : List ℚ
  deriving DecidableEq

/-- The function `MPSolver::solve_lp` (lines 79-121). -/
def solve_lp (prob : ProblemData) (oracle : IloModel → CplexOutcome) (pool : ColumnPool)
    (ports_with_equality : List PortWithType) : Except Failure MPLinearSolution :=
  match solve prob oracle pool ports_with_equality true with
  | .error e => .error e
  | .ok d =>
    match extract_port_duals prob d.cplex.port_duals with
    | .error e => .error e
    | .ok port_duals =>
      match vc_duals_loop prob d.cplex.vc_duals (for_range 0 d.cplex.vc_duals.length) [] with
      | .error e => .error e
      | .ok vc_duals => .ok (MPLinearSolution.mk d.cplex.obj_value port_duals vc_duals d.cplex.values)

/-- The function `MPSolver::solve_mip` (lines 123-147). -/
def solve_mip (prob : ProblemData) (oracle : IloModel → CplexOutcome) (pool : ColumnPool)
    (ports_with_equality : List PortWithType) : Except Failure MPIntegerSolution :=
  match solve prob oracle pool ports_with_equality false with
  | .error e => .error e
  | .ok d => .ok (MPIntegerSolution.mk d.cplex.obj_value d.cplex.values)

/-! ## Route nodes (`base/node.cpp`) -/

/-- Modelled from the spec: the enumeration `PickupType` is declared in `base/node.h`,
outside the sources; the spec gives it as `enum{PICKUP, DELIVERY}`. -/
inductive PickupType where
  | PICKUP
  | DELIVERY
  deriving DecidableEq, Repr

/-- Modelled from the spec: the class `Node` (`base/node.h`) is declared outside the
sources; the spec gives it as "port: shared reference to Port, pickup_or_delivery,
time_step: integer". The member names are those `node.cpp` reads. -/
structure Node where
  port : PortPtr
  pu_type : PickupType
  time_step : Int
  deriving DecidableEq

/-- The function `Node::pu_demand`. -/
def Node.pu_demand (self : Node) : ℚ :=
  if self.pu_type = PickupType.PICKUP then self.port.obj.pickup_demand else 0

/-- The function `Node::de_demand`. -/
def Node.de_demand (self : Node) : ℚ :=
  if self.pu_type = PickupType.DELIVERY then self.port.obj.delivery_demand else 0

/-- The function `Node::same_row_as`; `other.port == port` compares the pointers. -/
def Node.same_row_as (self other : Node) : Bool :=
  decide (other.port.addr = self.port.addr) && decide (other.pu_type = self.pu_type)

/-- The operator `Node::operator==`. -/
def Node.op_eq (self other : Node) : Bool :=
  self.same_row_as other && decide (other.time_step = self.time_step)

/-! ## Example instances -/

/-- A port object at the given address. -/
def example_port (addr : Nat) : PortPtr := ⟨addr, ⟨5, 7, 3, 4⟩⟩

/-- Two ports at distinct addresses (`num_ports = 2`), one vessel class. -/
def two_port_problem : ProblemData :=
  ⟨[example_port 10, example_port 20], 2, [⟨100, 1⟩], 1⟩

/-- Three ports at distinct addresses (`num_ports = 3`), one vessel class. -/
def three_port_problem : ProblemData :=
  ⟨[example_port 10, example_port 20, example_port 30], 3, [⟨100, 1⟩], 1⟩

/-! ## Auxiliary definitions used in the statements and proofs -/

/-- A pool with one column serving the non-reference port of `two_port_problem`. -/
def example_pool : ColumnPool := [⟨-5, [1, 1], [1]⟩]

/-- The model `MPSolver::solve` builds for `two_port_problem`, `example_pool` and the
given bounds of its two port rows. -/
def example_model (lb1 lb2 : IloNum) (type : VarType) : IloModel :=
  ⟨14, [⟨⟨-5, [(0, 1), (1, 1)], [(0, 1)]⟩, .fin 0, .infinity, type, "theta_0"⟩],
    [⟨lb1, .fin 1⟩, ⟨lb2, .fin 1⟩], [⟨.neg_infinity, .fin 1⟩]⟩

/-- A solver call that reports solved, with objective 9, port-row duals -2 and -3, a zero
vessel-class dual and the column variable at 1. -/
def example_oracle : IloModel → CplexOutcome :=
  fun _ => .returned true ⟨9, [-2, -3], [0], [1]⟩

/-- Address of `ports[i]` (0 when `i` is out of range). -/
def addr_at (prob : ProblemData) (i : Int) : Nat :=
  match vec_at prob.ports i with
  | .ok p => p.addr
  | .error _ => 0

/-- The pair `(values[i - 1], values[np - 1 + i - 1])` (0 where out of range). -/
def dual_pair_at (prob : ProblemData) (values : List ℚ) (i : Int) : ℚ × ℚ :=
  ((match vec_at values (i - 1) with
    | .ok a => a
    | .error _ => 0),
   (match vec_at values (prob.num_ports - 1 + i - 1) with
    | .ok b => b
    | .error _ => 0))

/-- The row `r` has the upper bound of `r2` and a lower bound that is the same or absent. -/
def IloRange.weaker (r r2 : IloRange) : Prop :=
  r.ub = r2.ub ∧ (r.lb = r2.lb ∨ r.lb = IloNum.neg_infinity)

/-! ## Lemmas on vectors and counting loops -/

theorem vec_at_ok_iff {α : Type} (v : List α) (i : Int) (a : α) :
    vec_at v i = .ok a ↔ 0 ≤ i ∧ v.get? i.toNat = some a := by
  unfold vec_at
  by_cases h : 0 ≤ i
  · simp only [h, if_true, true_and]
    cases hg : v.get? i.toNat with
    | none => simp
    | some b => simp
  · simp [h]

theorem vec_at_natCast {α : Type} (v : List α) (k : Nat) (a : α) :
    vec_at v (k : Int) = .ok a ↔ v.get? k = some a := by
  rw [vec_at_ok_iff]; simp

theorem vec_at_ok_of_lt {α : Type} (v : List α) (i : Int) (h0 : 0 ≤ i)
    (h1 : i < v.length) : ∃ a, vec_at v i = .ok a := by
  have hlt : i.toNat < v.length := by omega
  exact ⟨v.get ⟨i.toNat, hlt⟩, (vec_at_ok_iff v i _).2 ⟨h0, List.get?_eq_get hlt⟩⟩

theorem vec_at_error_of_ge {α : Type} (v : List α) (i : Int) (h : (v.length : Int) ≤ i) :
    vec_at v i = .error .out_of_bounds := by
  unfold vec_at
  have h0 : 0 ≤ i := by omega
  have hge : v.length ≤ i.toNat := by omega
  have hn : v.get? i.toNat = none := List.get?_eq_none.2 hge
  simp only [h0, if_true, hn]

theorem vec_at_lt_of_ok {α : Type} (v : List α) (i : Int) (a : α)
    (h : vec_at v i = .ok a) : 0 ≤ i ∧ i < v.length := by
  rcases (vec_at_ok_iff v i a).1 h with ⟨h0, hg⟩
  have := List.get?_eq_some.1 hg
  rcases this with ⟨hlt, _⟩
  omega

theorem int_seq_length (lo : Int) (n : Nat) : (int_seq lo n).length = n := by
  induction n generalizing lo with
  | zero => rfl
  | succ k ih => simp [int_seq, ih]

theorem int_seq_get? (lo : Int) (n k : Nat) (h : k < n) :
    (int_seq lo n).get? k = some (lo + k) := by
  induction n generalizing lo k with
  | zero => omega
  | succ m ih =>
    cases k with
    | zero => simp [int_seq]
    | succ j =>
      have hj : j < m := by omega
      simp only [int_seq, List.get?_cons_succ]
      rw [ih (lo + 1) j hj]
      congr 1
      push_cast
      ring

theorem for_range_length (lo hi : Int) : (for_range lo hi).length = (hi - lo).toNat :=
  int_seq_length lo _

theorem for_range_get? (lo hi : Int) (k : Nat) (h : (k : Int) < hi - lo) :
    (for_range lo hi).get? k = some (lo + k) :=
  int_seq_get? lo _ k (by omega)


/-! ## Lemmas on the row loop -/

theorem port_constr_loop_rows (prob : ProblemData) (eq : List PortWithType) :
    ∀ (is : List Int) (rows : List IloRange), port_constr_loop prob eq is = .ok rows →
      List.Forall₂ (fun i r => ∃ b, should_row_have_equality prob i eq = .ok b ∧
        r = IloRange.mk (if b then IloNum.fin 1 else IloNum.neg_infinity) (IloNum.fin 1)) is rows := by
  intro is
  induction is with
  | nil =>
    intro rows h
    simp only [port_constr_loop, Except.ok.injEq] at h
    subst h
    exact List.Forall₂.nil
  | cons i rest ih =>
    intro rows h
    unfold port_constr_loop at h
    cases hb : should_row_have_equality prob i eq with
    | error e => rw [hb] at h; simp at h
    | ok b =>
      cases hr : port_constr_loop prob eq rest with
      | error e => rw [hb, hr] at h; simp at h
      | ok rows0 =>
        rw [hb, hr] at h
        simp only [Except.ok.injEq] at h
        subst h
        exact List.Forall₂.cons ⟨b, hb, rfl⟩ (ih rows0 hr)

theorem build_model_ok_iff (prob : ProblemData) (pool : ColumnPool)
    (eq : List PortWithType) (linear : Bool) (m : IloModel) :
    build_model prob pool eq linear = .ok m ↔
      ∃ pc vc var, build_port_constr prob eq = .ok pc ∧ build_vc_constr prob = .ok vc ∧
        build_vars prob pc vc linear 0 pool = .ok var ∧
        m = IloModel.mk (all_penalties prob) var pc vc := by
  unfold build_model
  cases hp : build_port_constr prob eq with
  | error e => simp
  | ok pc =>
    cases hv : build_vc_constr prob with
    | error e => simp
    | ok vc =>
      cases hx : build_vars prob pc vc linear 0 pool with
      | error e => simp [hx]
      | ok var =>
        simp only [hx, Except.ok.injEq]
        constructor
        · intro h
          exact ⟨pc, vc, var, rfl, rfl, hx, h.symm⟩
        · rintro ⟨pc1, vc1, var1, h1, h2, h3, h4⟩
          subst h1 h2
          rw [hx] at h3
          cases h3
          exact h4.symm

theorem build_model_port_constr (prob : ProblemData) (pool : ColumnPool)
    (eq : List PortWithType) (linear : Bool) (m : IloModel)
    (h : build_model prob pool eq linear = .ok m) :
    build_port_constr prob eq = .ok m.port_constr := by
  obtain ⟨pc, vc, var, h1, _, _, h4⟩ := (build_model_ok_iff prob pool eq linear m).1 h
  subst h4
  exact h1

theorem build_port_constr_row (prob : ProblemData) (eq : List PortWithType)
    (rows : List IloRange) (h : build_port_constr prob eq = .ok rows)
    (r : Int) (h1 : 1 ≤ r) (h2 : r ≤ 2 * (prob.num_ports - 1)) :
    ∃ b, should_row_have_equality prob r eq = .ok b ∧
      vec_at rows (r - 1) =
        .ok (IloRange.mk (if b then IloNum.fin 1 else IloNum.neg_infinity) (IloNum.fin 1)) := by
  have hf := port_constr_loop_rows prob eq _ rows h
  have hlen := hf.length_eq
  rw [for_range_length] at hlen
  have hk : ((r - 1).toNat : Int) < 2 * (prob.num_ports - 1) + 1 - 1 := by omega
  have hget := for_range_get? 1 (2 * (prob.num_ports - 1) + 1) (r - 1).toNat hk
  have hri : (1 : Int) + ((r - 1).toNat : Int) = r := by omega
  rw [hri] at hget
  have hlt1 : (r - 1).toNat < (for_range 1 (2 * (prob.num_ports - 1) + 1)).length := by
    rw [for_range_length]; omega
  have hlt2 : (r - 1).toNat < rows.length := by omega
  have hrel := hf.get hlt1 hlt2
  have hi : (for_range 1 (2 * (prob.num_ports - 1) + 1)).get ⟨(r - 1).toNat, hlt1⟩ = r := by
    have := List.get?_eq_get hlt1
    rw [hget] at this
    exact (Option.some.inj this).symm
  rw [hi] at hrel
  obtain ⟨b, hb, hrow⟩ := hrel
  refine ⟨b, hb, ?_⟩
  rw [vec_at_ok_iff]
  refine ⟨by omega, ?_⟩
  rw [List.get?_eq_get hlt2, hrow]

theorem build_port_constr_length (prob : ProblemData) (eq : List PortWithType)
    (rows : List IloRange) (h : build_port_constr prob eq = .ok rows) :
    (rows.length : Int) = max 0 (2 * (prob.num_ports - 1)) := by
  have hlen := (port_constr_loop_rows prob eq _ rows h).length_eq
  rw [for_range_length] at hlen
  omega

theorem all_penalties_two_port_problem : all_penalties two_port_problem = 14 := by
  norm_num [all_penalties, two_port_problem, example_port]

theorem build_model_example_marked (linear : Bool) :
    build_model two_port_problem example_pool [(10, PortType.PICKUP)] linear =
      .ok (example_model (.fin 1) .neg_infinity (if linear then .Float else .Bool)) := by
  unfold example_model
  rw [← all_penalties_two_port_problem]
  cases linear <;> rfl

theorem build_model_example_unmarked (linear : Bool) :
    build_model two_port_problem example_pool [] linear =
      .ok (example_model .neg_infinity .neg_infinity (if linear then .Float else .Bool)) := by
  unfold example_model
  rw [← all_penalties_two_port_problem]
  cases linear <;> rfl


/-! ## Row lookup against construction order -/

theorem row_lookup_past_the_end (prob : ProblemData) (eq : List PortWithType)
    (hn : 3 ≤ prob.num_ports) (hlen : (prob.ports.length : Int) = prob.num_ports) :
    should_row_have_equality prob (prob.num_ports + 1) eq = .error .out_of_bounds := by
  unfold should_row_have_equality
  have h1 : prob.num_ports + 1 ≥ 1 := by omega
  have h2 : prob.num_ports + 1 ≤ 2 * (prob.num_ports - 1) := by omega
  have h3 : ¬ (prob.num_ports + 1 - 1 > prob.num_ports) := by omega
  simp only [h1, h2, h3, not_true_eq_false, if_false]
  have h4 : vec_at prob.ports (prob.num_ports + 1 - 1) = .error .out_of_bounds :=
    vec_at_error_of_ge _ _ (by omega)
  rw [h4]

/-- C1 (code defect): by the coefficient loop, pass `i = 1` puts the pickup coefficient of
`ports[1]` on row index 0, so row number 1 is the PICKUP row of `ports[1]`; yet with
exactly that pair marked `should_row_have_equality(1, eq)` answers false, and it answers
true when the pair of the reference port `ports[0]` is marked instead. -/
theorem C1_row_lookup_disagrees_with_construction :
    port_coeff_indices two_port_problem.num_ports 1 = [(0, 0), (1, 1)] ∧
    vec_at two_port_problem.ports 1 = .ok (example_port 20) ∧
    vec_at two_port_problem.ports 0 = .ok (example_port 10) ∧
    should_row_have_equality two_port_problem 1 [((example_port 20).addr, PortType.PICKUP)]
      = .ok false ∧
    should_row_have_equality two_port_problem 1 [((example_port 10).addr, PortType.PICKUP)]
      = .ok true :=
  ⟨rfl, rfl, rfl, rfl, rfl⟩

/-- C10 (code defect): with three ports (indices 0..2) row 4 satisfies the asserted
precondition `1 <= row <= 2 * (n - 1)`, the computed port index is 3, and the lookup
`ports[3]` is out of bounds whatever the equality set; `MPSolver::solve` reaches it. -/
theorem C10_row_lookup_out_of_bounds :
    (three_port_problem.ports.length : Int) = three_port_problem.num_ports ∧
    (1 : Int) ≤ 4 ∧ (4 : Int) ≤ 2 * (three_port_problem.num_ports - 1) ∧
    (∀ eq, should_row_have_equality three_port_problem 4 eq = .error .out_of_bounds) ∧
    (∀ pool eq linear, build_model three_port_problem pool eq linear = .error .out_of_bounds) := by
  refine ⟨rfl, by decide, by decide, fun eq => rfl, fun pool eq linear => ?_⟩
  have h : build_port_constr three_port_problem eq = .error .out_of_bounds := rfl
  unfold build_model
  rw [h]

/-! ## Bounds of the port rows -/

theorem holds_at_most_one (v : ℚ) :
    (IloRange.mk IloNum.neg_infinity (IloNum.fin 1)).holds v ↔ v ≤ 1 := by
  simp [IloRange.holds, IloNum.below, IloNum.above]

theorem holds_exactly_one (v : ℚ) :
    (IloRange.mk (IloNum.fin 1) (IloNum.fin 1)).holds v ↔ v = 1 := by
  simp only [IloRange.holds, IloNum.below, IloNum.above]
  constructor
  · rintro ⟨h1, h2⟩; exact le_antisymm h2 h1
  · rintro rfl; exact ⟨le_refl _, le_refl _⟩

/-- C2 (as stated, refuted): in the model built for `two_port_problem` with no equality
row, row 1 is unmarked and its bounds are (minus infinity, 1), not (1, infinity): the row
admits the value 0 and rejects the value 2. -/
theorem C2_unmarked_row_not_at_least_one :
    should_row_have_equality two_port_problem 1 [] = .ok false ∧
    build_model two_port_problem example_pool [] true =
      .ok (example_model .neg_infinity .neg_infinity .Float) ∧
    vec_at (example_model .neg_infinity .neg_infinity .Float).port_constr (1 - 1) =
      .ok (IloRange.mk .neg_infinity (.fin 1)) ∧
    IloRange.mk .neg_infinity (.fin 1) ≠ IloRange.mk (.fin 1) .infinity ∧
    (IloRange.mk .neg_infinity (.fin 1)).holds 0 ∧
    ¬ (IloRange.mk .neg_infinity (.fin 1)).holds 2 := by
  refine ⟨rfl, build_model_example_unmarked true, rfl, by decide, ?_, ?_⟩
  · rw [holds_at_most_one]; norm_num
  · rw [holds_at_most_one]; norm_num

/-- C2 (amended): every port row `r` in `1..2(n-1)` of the model built by `MPSolver::solve`
is either unmarked (`should_row_have_equality(r, eq)` is false) with no finite lower bound
and upper bound 1 ("at most one"), or marked with lower bound = upper bound = 1. -/
theorem C2_port_row_bounds (prob : ProblemData) (pool : ColumnPool)
    (eq : List PortWithType) (linear : Bool) (m : IloModel)
    (h : build_model prob pool eq linear = .ok m)
    (r : Int) (h1 : 1 ≤ r) (h2 : r ≤ 2 * (prob.num_ports - 1)) :
    (should_row_have_equality prob r eq = .ok false ∧
      vec_at m.port_constr (r - 1) = .ok (IloRange.mk .neg_infinity (.fin 1))) ∨
    (should_row_have_equality prob r eq = .ok true ∧
      vec_at m.port_constr (r - 1) = .ok (IloRange.mk (.fin 1) (.fin 1))) := by
  obtain ⟨b, hb, hrow⟩ :=
    build_port_constr_row prob eq m.port_constr
      (build_model_port_constr prob pool eq linear m h) r h1 h2
  cases b with
  | false => exact Or.inl ⟨hb, hrow⟩
  | true => exact Or.inr ⟨hb, hrow⟩

theorem C2_port_row_bounds_witness :
    (should_row_have_equality two_port_problem 2 [(10, PortType.PICKUP)] = .ok false ∧
      vec_at (example_model (.fin 1) .neg_infinity .Float).port_constr (2 - 1) =
        .ok (IloRange.mk .neg_infinity (.fin 1))) ∨
    (should_row_have_equality two_port_problem 2 [(10, PortType.PICKUP)] = .ok true ∧
      vec_at (example_model (.fin 1) .neg_infinity .Float).port_constr (2 - 1) =
        .ok (IloRange.mk (.fin 1) (.fin 1))) :=
  C2_port_row_bounds two_port_problem example_pool [(10, PortType.PICKUP)] true
    (example_model (.fin 1) .neg_infinity .Float) (build_model_example_marked true)
    2 (by decide) (by decide)

/-! ## Route nodes -/

/-- C5: `a.same_row_as(b)` holds iff `a` and `b` hold the same port pointer and the same
pickup/delivery flag, and changing time steps never changes it; `a == b` holds iff
`same_row_as` holds and the time steps are equal; two PICKUP nodes on one port at time
steps 3 and 7 are `same_row_as` but not equal. -/
theorem C5_node_row_equality (a b : Node) :
    (a.same_row_as b = true ↔ (a.port.addr = b.port.addr ∧ a.pu_type = b.pu_type)) ∧
    (∀ t u : Int, (Node.mk a.port a.pu_type t).same_row_as (Node.mk b.port b.pu_type u)
        = a.same_row_as b) ∧
    (a.op_eq b = true ↔ (a.same_row_as b = true ∧ a.time_step = b.time_step)) ∧
    (∀ p : PortPtr, (Node.mk p .PICKUP 3).same_row_as (Node.mk p .PICKUP 7) = true ∧
        (Node.mk p .PICKUP 3).op_eq (Node.mk p .PICKUP 7) = false) := by
  refine ⟨?_, fun t u => rfl, ?_, fun p => ⟨?_, ?_⟩⟩
  · simp only [Node.same_row_as, Bool.and_eq_true, decide_eq_true_eq]
    constructor
    · rintro ⟨h1, h2⟩; exact ⟨h1.symm, h2.symm⟩
    · rintro ⟨h1, h2⟩; exact ⟨h1.symm, h2.symm⟩
  · simp only [Node.op_eq, Bool.and_eq_true, decide_eq_true_eq]
    constructor
    · rintro ⟨h1, h2⟩; exact ⟨h1, h2.symm⟩
    · rintro ⟨h1, h2⟩; exact ⟨h1, h2.symm⟩
  · simp [Node.same_row_as]
  · simp [Node.op_eq, Node.same_row_as]

/-- C6: every node is a PICKUP node whose `pu_demand()` is its port's pickup demand and
whose `de_demand()` is 0, or a DELIVERY node whose `pu_demand()` is 0 and whose
`de_demand()` is its port's delivery demand. -/
theorem C6_node_demand (n : Node) :
    (n.pu_type = PickupType.PICKUP ∧ n.pu_demand = n.port.obj.pickup_demand ∧
      n.de_demand = 0) ∨
    (n.pu_type = PickupType.DELIVERY ∧ n.pu_demand = 0 ∧
      n.de_demand = n.port.obj.delivery_demand) := by
  obtain ⟨p, ty, t⟩ := n
  cases ty with
  | PICKUP => exact Or.inl ⟨rfl, by simp [Node.pu_demand], by simp [Node.de_demand]⟩
  | DELIVERY => exact Or.inr ⟨rfl, by simp [Node.pu_demand], by simp [Node.de_demand]⟩


/-! ## The objective -/

theorem foldl_add_eq_sum {α : Type} (f : α → ℚ) (l : List α) (a : ℚ) :
    l.foldl (fun acc p => acc + f p) a = a + (l.map f).sum := by
  induction l generalizing a with
  | nil => simp
  | cons x xs ih => simp only [List.foldl_cons, List.map_cons, List.sum_cons, ih]; ring

theorem zipWith_zero_sum {α : Type} (g : α → ℚ) (l : List α) (n : Nat) :
    (List.zipWith (fun v t => g v * t) l (List.replicate n 0)).sum = 0 := by
  induction l generalizing n with
  | nil => simp
  | cons x xs ih =>
    cases n with
    | zero => simp
    | succ k => simp [List.replicate_succ, ih]

/-- C9: the constant term of the objective is the sum over all ports (the reference port
included) of `pickup_penalty + delivery_penalty`; it is the constant of every model built,
whatever the pool and the equality set, and with every column variable at 0 the objective
value is that sum. -/
theorem C9_objective_constant (prob : ProblemData) :
    all_penalties prob =
      (prob.ports.map (fun p => p.obj.pickup_penalty + p.obj.delivery_penalty)).sum ∧
    (∀ (pool : ColumnPool) (eq : List PortWithType) (linear : Bool) (m : IloModel),
      build_model prob pool eq linear = .ok m →
        m.obj_constant =
          (prob.ports.map (fun p => p.obj.pickup_penalty + p.obj.delivery_penalty)).sum ∧
        objective_value m (List.replicate m.var.length 0) =
          (prob.ports.map (fun p => p.obj.pickup_penalty + p.obj.delivery_penalty)).sum) := by
  have hsum : all_penalties prob =
      (prob.ports.map (fun p => p.obj.pickup_penalty + p.obj.delivery_penalty)).sum := by
    unfold all_penalties
    rw [foldl_add_eq_sum (fun p : PortPtr => p.obj.pickup_penalty + p.obj.delivery_penalty)]
    ring
  refine ⟨hsum, fun pool eq linear m h => ?_⟩
  obtain ⟨pc, vc, var, _, _, _, hm⟩ := (build_model_ok_iff prob pool eq linear m).1 h
  have hc : m.obj_constant = all_penalties prob := by rw [hm]
  refine ⟨hc.trans hsum, ?_⟩
  unfold objective_value
  rw [zipWith_zero_sum (fun v : IloNumVar => v.column.obj_coeff), hc, hsum]
  ring

theorem C9_objective_constant_witness :
    (example_model .neg_infinity .neg_infinity .Float).obj_constant =
      (two_port_problem.ports.map (fun p => p.obj.pickup_penalty + p.obj.delivery_penalty)).sum ∧
    objective_value (example_model .neg_infinity .neg_infinity .Float)
        (List.replicate (example_model .neg_infinity .neg_infinity .Float).var.length 0) =
      (two_port_problem.ports.map (fun p => p.obj.pickup_penalty + p.obj.delivery_penalty)).sum :=
  (C9_objective_constant two_port_problem).2 example_pool [] true
    (example_model .neg_infinity .neg_infinity .Float) (build_model_example_unmarked true)

/-! ## Coverage of the port rows by the coefficient loop -/

theorem int_seq_append (lo : Int) (a b : Nat) :
    int_seq lo (a + b) = int_seq lo a ++ int_seq (lo + a) b := by
  induction a generalizing lo with
  | zero => simp [int_seq]
  | succ k ih =>
    have h : k + 1 + b = (k + b) + 1 := by omega
    rw [h]
    simp only [int_seq, List.cons_append]
    rw [ih (lo + 1)]
    congr 2
    push_cast
    ring_nf

theorem mem_int_seq (lo : Int) (n : Nat) (x : Int) :
    x ∈ int_seq lo n ↔ lo ≤ x ∧ x < lo + n := by
  induction n generalizing lo with
  | zero => simp [int_seq]
  | succ k ih =>
    simp only [int_seq, List.mem_cons, ih]
    push_cast
    omega

theorem int_seq_nodup (lo : Int) (n : Nat) : (int_seq lo n).Nodup := by
  induction n generalizing lo with
  | zero => simp [int_seq]
  | succ k ih =>
    simp only [int_seq, List.nodup_cons]
    refine ⟨?_, ih (lo + 1)⟩
    rw [mem_int_seq]
    omega

theorem mem_for_range (lo hi x : Int) : x ∈ for_range lo hi ↔ lo ≤ x ∧ x < hi := by
  unfold for_range
  rw [mem_int_seq]
  omega

theorem coeff_loop_perm_aux (np : Int) (lo : Int) (count : Nat) :
    List.Perm ((int_seq lo count).flatMap (port_coeff_indices np))
      ((int_seq (lo - 1) count ++ int_seq (np - 1 + lo - 1) count).map (fun k => (k, k))) := by
  induction count generalizing lo with
  | zero => simp [int_seq]
  | succ k ih =>
    have e1 : lo - 1 + 1 = lo + 1 - 1 := by ring
    have e2 : np - 1 + lo - 1 + 1 = np - 1 + (lo + 1) - 1 := by ring
    simp only [int_seq, List.flatMap_cons, port_coeff_indices, List.cons_append,
      List.nil_append, List.map_cons, List.map_append, e1, e2]
    refine List.Perm.cons _ ?_
    refine List.Perm.trans (List.Perm.cons _ (ih (lo + 1))) ?_
    simp only [List.map_append]
    exact List.perm_middle.symm

theorem port_coeff_loop_perm (np : Int) (h : 1 ≤ np) :
    List.Perm (port_coeff_loop np) ((for_range 0 (2 * (np - 1))).map (fun k => (k, k))) := by
  unfold port_coeff_loop for_range
  have hc : (2 * (np - 1) - 0).toNat = (np - 1).toNat + (np - 1).toNat := by omega
  have hm : ((0 : Int) + ((np - 1).toNat : Int)) = np - 1 + 1 - 1 := by omega
  rw [hc, int_seq_append, hm]
  have := coeff_loop_perm_aux np 1 (np - 1).toNat
  simpa using this


theorem should_row_defined (prob : ProblemData) (eq : List PortWithType) (r : Int)
    (h1 : 1 ≤ r) (h2 : r ≤ 2 * (prob.num_ports - 1))
    (hlen : 2 * (prob.num_ports - 1) ≤ (prob.ports.length : Int)) :
    ∃ b, should_row_have_equality prob r eq = .ok b := by
  unfold should_row_have_equality
  have h1' : r ≥ 1 := h1
  simp only [h1', h2, not_true_eq_false, if_false]
  by_cases hs : r - 1 > prob.num_ports
  · simp only [hs, if_true]
    obtain ⟨p, hp⟩ := vec_at_ok_of_lt prob.ports (r - 1 - (prob.num_ports - 1))
      (by omega) (by omega)
    rw [hp]
    exact ⟨_, rfl⟩
  · simp only [hs, if_false]
    obtain ⟨p, hp⟩ := vec_at_ok_of_lt prob.ports (r - 1) (by omega) (by omega)
    rw [hp]
    exact ⟨_, rfl⟩

theorem port_constr_loop_defined (prob : ProblemData) (eq : List PortWithType) :
    ∀ is : List Int, (∀ i ∈ is, ∃ b, should_row_have_equality prob i eq = .ok b) →
      ∃ rows, port_constr_loop prob eq is = .ok rows := by
  intro is
  induction is with
  | nil => intro _; exact ⟨[], rfl⟩
  | cons i rest ih =>
    intro h
    obtain ⟨b, hb⟩ := h i (List.mem_cons_self _ _)
    obtain ⟨rows, hrows⟩ := ih (fun j hj => h j (List.mem_cons_of_mem _ hj))
    exact ⟨IloRange.mk (if b then IloNum.fin 1 else IloNum.neg_infinity) (IloNum.fin 1) :: rows,
      by simp only [port_constr_loop, hb, hrows]⟩

theorem build_port_constr_defined (prob : ProblemData) (eq : List PortWithType)
    (hlen : 2 * (prob.num_ports - 1) ≤ (prob.ports.length : Int)) :
    ∃ rows, build_port_constr prob eq = .ok rows := by
  apply port_constr_loop_defined
  intro i hi
  rw [mem_for_range] at hi
  exact should_row_defined prob eq i hi.1 (by omega) hlen

theorem add_port_entries_ok (pc : List IloRange) (col : Column) :
    ∀ idxs : List (Int × Int),
      (∀ rc ∈ idxs, (0 ≤ rc.1 ∧ rc.1 < pc.length) ∧ (0 ≤ rc.2 ∧ rc.2 < col.port_coeff.length)) →
      ∃ entries, add_port_entries pc col idxs = .ok entries ∧
        List.Forall₂ (fun rc e => e.1 = rc.1 ∧ vec_at col.port_coeff rc.2 = .ok e.2)
          idxs entries := by
  intro idxs
  induction idxs with
  | nil => intro _; exact ⟨[], rfl, List.Forall₂.nil⟩
  | cons rc rest ih =>
    intro h
    obtain ⟨⟨h1, h2⟩, h3, h4⟩ := h rc (List.mem_cons_self _ _)
    obtain ⟨row, hrow⟩ := vec_at_ok_of_lt pc rc.1 h1 h2
    obtain ⟨c, hc⟩ := vec_at_ok_of_lt col.port_coeff rc.2 h3 h4
    obtain ⟨entries, he, hf⟩ := ih (fun x hx => h x (List.mem_cons_of_mem _ hx))
    refine ⟨(rc.1, c) :: entries, ?_, List.Forall₂.cons ⟨rfl, hc⟩ hf⟩
    simp only [add_port_entries, add_port_entry, hrow, hc, he]

theorem entries_rows_eq (col : Column) (idxs : List (Int × Int)) (entries : List (Int × ℚ))
    (hf : List.Forall₂ (fun rc e => e.1 = rc.1 ∧ vec_at col.port_coeff rc.2 = .ok e.2)
      idxs entries) :
    entries.map Prod.fst = idxs.map Prod.fst := by
  induction hf with
  | nil => rfl
  | cons h _ ih => simp only [List.map_cons, ih, h.1]

theorem entries_filter_row (col : Column) (idxs : List (Int × Int)) (entries : List (Int × ℚ))
    (hf : List.Forall₂ (fun rc e => e.1 = rc.1 ∧ vec_at col.port_coeff rc.2 = .ok e.2)
      idxs entries)
    (hd : ∀ rc ∈ idxs, rc.2 = rc.1) (k : Int) (c : ℚ) (hk : vec_at col.port_coeff k = .ok c) :
    entries.filter (fun e => decide (e.1 = k)) =
      List.replicate ((idxs.map Prod.fst).count k) (k, c) := by
  induction hf with
  | nil => rfl
  | @cons rc e rest erest h _ ih =>
    have hd0 := hd rc (List.mem_cons_self _ _)
    have ih0 := ih (fun x hx => hd x (List.mem_cons_of_mem _ hx))
    by_cases hrk : rc.1 = k
    · have he1 : e.1 = k := h.1.trans hrk
      have he2 : e.2 = c := by
        have h2 := h.2
        rw [hd0, hrk, hk] at h2
        exact (Except.ok.inj h2).symm
      have hek : e = (k, c) := Prod.ext he1 he2
      simp only [List.map_cons, hrk, List.count_cons_self, List.replicate_succ]
      rw [List.filter_cons_of_pos (by simpa using he1), ih0, hek]
    · have he1 : ¬ e.1 = k := fun hh => hrk (h.1.symm.trans hh)
      have hne : (rc.1 == k) = false := by simpa using hrk
      rw [List.filter_cons_of_neg (by simpa using he1), ih0]
      simp only [List.map_cons, List.count_cons, hne]
      simp

/-- The row loop runs `2(n-1)` times, every set of rows built has `2(n-1)` rows, and the
rows are built whenever the port vector has at least `2(n-1)` entries; the (row,
coefficient) index pairs of the coefficient loop have row index = coefficient index and
their row indices are a duplicate-free rearrangement of `0, ..., 2(n-1)-1`, pickup rows
first; for a column with at least `2(n-1)` port coefficients the loop leaves on each row
`k` exactly the one entry `port_coeff[k]`. -/
theorem coefficient_loop_covers_rows (np : Int) (h : 1 ≤ np) :
    ((for_range 1 (2 * (np - 1) + 1)).length : Int) = 2 * (np - 1) ∧
    (∀ (prob : ProblemData) (eq : List PortWithType) (rows : List IloRange),
      prob.num_ports = np → build_port_constr prob eq = .ok rows →
        (rows.length : Int) = 2 * (np - 1)) ∧
    (∀ (prob : ProblemData) (eq : List PortWithType), prob.num_ports = np →
      2 * (np - 1) ≤ (prob.ports.length : Int) →
        ∃ rows, build_port_constr prob eq = .ok rows ∧ (rows.length : Int) = 2 * (np - 1)) ∧
    (∀ rc ∈ port_coeff_loop np, rc.2 = rc.1) ∧
    List.Perm ((port_coeff_loop np).map Prod.fst) (for_range 0 (2 * (np - 1))) ∧
    ((port_coeff_loop np).map Prod.fst).Nodup ∧
    (∀ i, 1 ≤ i → i < np → ∃ r_pu r_de,
      port_coeff_indices np i = [(r_pu, r_pu), (r_de, r_de)] ∧
      (0 ≤ r_pu ∧ r_pu < np - 1) ∧ (np - 1 ≤ r_de ∧ r_de < 2 * (np - 1))) ∧
    (∀ (pc : List IloRange) (col : Column), (pc.length : Int) = 2 * (np - 1) →
      2 * (np - 1) ≤ (col.port_coeff.length : Int) →
      ∃ entries, add_port_entries pc col (port_coeff_loop np) = .ok entries ∧
        entries.map Prod.fst = (port_coeff_loop np).map Prod.fst ∧
        ∀ (k : Int) (c : ℚ), vec_at col.port_coeff k = .ok c → k < 2 * (np - 1) →
          entries.filter (fun e => decide (e.1 = k)) = [(k, c)]) := by
  have hperm := port_coeff_loop_perm np h
  have hperm1 : List.Perm ((port_coeff_loop np).map Prod.fst) (for_range 0 (2 * (np - 1))) := by
    have := hperm.map Prod.fst
    simpa [List.map_map, Function.comp_def] using this
  have hdiag : ∀ rc ∈ port_coeff_loop np, rc.2 = rc.1 := by
    intro rc hrc
    have := (hperm.mem_iff).1 hrc
    rw [List.mem_map] at this
    obtain ⟨k, _, hk⟩ := this
    rw [← hk]
  have hnodup : ((port_coeff_loop np).map Prod.fst).Nodup :=
    (hperm1.nodup_iff).2 (int_seq_nodup _ _)
  refine ⟨?_, ?_, ?_, hdiag, hperm1, hnodup, ?_, ?_⟩
  · rw [for_range_length]; omega
  · intro prob eq rows hnp hrows
    have := build_port_constr_length prob eq rows hrows
    rw [hnp] at this
    omega
  · intro prob eq hnp hlen
    obtain ⟨rows, hrows⟩ := build_port_constr_defined prob eq (by rw [hnp]; exact hlen)
    have := build_port_constr_length prob eq rows hrows
    rw [hnp] at this
    exact ⟨rows, hrows, by omega⟩
  · intro i h1 h2
    exact ⟨i - 1, np - 1 + i - 1, rfl, ⟨by omega, by omega⟩, ⟨by omega, by omega⟩⟩
  · intro pc col hpc hcol
    have hrange : ∀ rc ∈ port_coeff_loop np,
        (0 ≤ rc.1 ∧ rc.1 < pc.length) ∧ (0 ≤ rc.2 ∧ rc.2 < col.port_coeff.length) := by
      intro rc hrc
      have hmem : rc.1 ∈ for_range 0 (2 * (np - 1)) :=
        (hperm1.mem_iff).1 (List.mem_map_of_mem Prod.fst hrc)
      rw [mem_for_range] at hmem
      have hd := hdiag rc hrc
      omega
    obtain ⟨entries, he, hf⟩ := add_port_entries_ok pc col (port_coeff_loop np) hrange
    refine ⟨entries, he, entries_rows_eq col _ _ hf, ?_⟩
    intro k c hk hlt
    have hk0 := (vec_at_lt_of_ok _ _ _ hk).1
    have hmem : k ∈ for_range 0 (2 * (np - 1)) := (mem_for_range _ _ _).2 ⟨hk0, hlt⟩
    have hcount : ((port_coeff_loop np).map Prod.fst).count k = 1 :=
      List.count_eq_one_of_mem hnodup ((hperm1.mem_iff).2 hmem)
    rw [entries_filter_row col _ _ hf hdiag k c hk, hcount]
    rfl

/-! ## Dual attribution in `solve_lp` -/

theorem ports_addr_inj (prob : ProblemData) (hd : (prob.ports.map PortPtr.addr).Nodup)
    (i j : Int) (p q : PortPtr) (hi : vec_at prob.ports i = .ok p)
    (hj : vec_at prob.ports j = .ok q) (hpq : p.addr = q.addr) : i = j := by
  obtain ⟨hi0, hig⟩ := (vec_at_ok_iff _ _ _).1 hi
  obtain ⟨hj0, hjg⟩ := (vec_at_ok_iff _ _ _).1 hj
  have hil := (vec_at_lt_of_ok _ _ _ hi).2
  have hjl := (vec_at_lt_of_ok _ _ _ hj).2
  have h1 : (prob.ports.map PortPtr.addr)[i.toNat]? = some p.addr := by
    rw [List.get?_eq_getElem?] at hig; simp [hig]
  have h2 : (prob.ports.map PortPtr.addr)[j.toNat]? = some q.addr := by
    rw [List.get?_eq_getElem?] at hjg; simp [hjg]
  have hn := List.nodup_iff_getElem?_ne_getElem?.1 hd
  rcases lt_trichotomy i.toNat j.toNat with hlt | heq | hgt
  · exact absurd (h1.trans (hpq ▸ h2.symm)) (hn _ _ hlt (by simp; omega))
  · omega
  · exact absurd (h2.trans (hpq ▸ h1.symm)) (hn _ _ hgt (by simp; omega))

theorem emplace_fresh {V : Type} (m : PtrMap V) (key : Nat) (v : V)
    (h : ∀ e ∈ m, e.1 ≠ key) : m.emplace key v = m ++ [(key, v)] := by
  unfold PtrMap.emplace
  have : m.any (fun e => decide (e.1 = key)) = false := by
    rw [List.any_eq_false]
    intro x hx
    simpa using h x hx
  simp [this]

theorem port_duals_loop_eq (prob : ProblemData) (values : List ℚ)
    (hlen : prob.num_ports ≤ (prob.ports.length : Int))
    (hd : (prob.ports.map PortPtr.addr).Nodup)
    (hvals : (values.length : Int) = 2 * (prob.num_ports - 1)) :
    ∀ (is : List Int) (m0 : PtrMap (ℚ × ℚ)),
      (∀ i ∈ is, 1 ≤ i ∧ i < prob.num_ports) → is.Nodup →
      (∀ i ∈ is, ∀ e ∈ m0, e.1 ≠ addr_at prob i) →
      port_duals_loop prob values is m0 =
        .ok (m0 ++ is.map (fun i => (addr_at prob i, dual_pair_at prob values i))) := by
  intro is
  induction is with
  | nil => intro m0 _ _ _; simp [port_duals_loop]
  | cons i rest ih =>
    intro m0 hr hnd hfresh
    obtain ⟨hi1, hi2⟩ := hr i (List.mem_cons_self _ _)
    obtain ⟨p, hp⟩ := vec_at_ok_of_lt prob.ports i (by omega) (by omega)
    obtain ⟨a, ha⟩ := vec_at_ok_of_lt values (i - 1) (by omega) (by omega)
    obtain ⟨b, hb⟩ := vec_at_ok_of_lt values (prob.num_ports - 1 + i - 1) (by omega) (by omega)
    have haddr : addr_at prob i = p.addr := by simp [addr_at, hp]
    have hpair : dual_pair_at prob values i = (a, b) := by simp [dual_pair_at, ha, hb]
    have hfr : ∀ e ∈ m0, e.1 ≠ p.addr := by
      intro e he
      rw [← haddr]
      exact hfresh i (List.mem_cons_self _ _) e he
    rw [List.nodup_cons] at hnd
    simp only [port_duals_loop, hp, ha, hb]
    rw [emplace_fresh m0 p.addr (a, b) hfr]
    rw [ih (m0 ++ [(p.addr, (a, b))]) (fun x hx => hr x (List.mem_cons_of_mem _ hx)) hnd.2]
    · simp [haddr, hpair]
    · intro j hj e he
      rw [List.mem_append] at he
      rcases he with he | he
      · exact hfresh j (List.mem_cons_of_mem _ hj) e he
      · simp only [List.mem_singleton] at he
        subst he
        obtain ⟨hj1, hj2⟩ := hr j (List.mem_cons_of_mem _ hj)
        obtain ⟨q, hq⟩ := vec_at_ok_of_lt prob.ports j (by omega) (by omega)
        have hjaddr : addr_at prob j = q.addr := by simp [addr_at, hq]
        rw [hjaddr]
        intro hpq
        have := ports_addr_inj prob hd i j p q hp hq hpq
        exact hnd.1 (this ▸ hj)

theorem find_of_mem_of_nodup_keys {V : Type} (m : PtrMap V) (key : Nat) (v : V)
    (hn : (m.map Prod.fst).Nodup) (hm : (key, v) ∈ m) : m.find key = some v := by
  induction m with
  | nil => simp at hm
  | cons e rest ih =>
    simp only [List.map_cons, List.nodup_cons] at hn
    rcases List.mem_cons.1 hm with h | h
    · subst h
      simp [PtrMap.find]
    · have hne : e.1 ≠ key := by
        intro he
        exact hn.1 (he ▸ List.mem_map_of_mem Prod.fst h)
      have := ih hn.2 h
      simp only [PtrMap.find] at this ⊢
      rw [List.find?_cons_of_neg _ (by simpa using hne)]
      exact this

theorem find_none_of_no_key {V : Type} (m : PtrMap V) (key : Nat)
    (h : ∀ e ∈ m, e.1 ≠ key) : m.find key = none := by
  simp only [PtrMap.find, Option.map_eq_none', List.find?_eq_none]
  intro x hx
  simpa using h x hx

/-- The loop of lines 96-100 on an array of `2(n-1)` duals: `n-1` entries, none for
`ports[0]`, and `ports[i]` mapped to (`values[i-1]`, `values[(n-1)+(i-1)]`). -/
theorem extract_port_duals_attribution (prob : ProblemData) (values : List ℚ)
    (hn : 2 ≤ prob.num_ports) (hlen : prob.num_ports ≤ (prob.ports.length : Int))
    (hd : (prob.ports.map PortPtr.addr).Nodup)
    (hvals : (values.length : Int) = 2 * (prob.num_ports - 1)) :
    ∃ m, extract_port_duals prob values = .ok m ∧
      (m.length : Int) = prob.num_ports - 1 ∧
      (∀ p0, vec_at prob.ports 0 = .ok p0 → m.find p0.addr = none) ∧
      (∀ i, 1 ≤ i → i < prob.num_ports → ∃ p a b,
        vec_at prob.ports i = .ok p ∧ m.find p.addr = some (a, b) ∧
        (i - 1, i - 1) ∈ port_coeff_loop prob.num_ports ∧ vec_at values (i - 1) = .ok a ∧
        (prob.num_ports - 1 + i - 1, prob.num_ports - 1 + i - 1) ∈
          port_coeff_loop prob.num_ports ∧
        vec_at values (prob.num_ports - 1 + i - 1) = .ok b) := by
  have hhalf : (values.length : Int) / 2 + 1 = prob.num_ports := by omega
  have hrange : ∀ i ∈ for_range 1 prob.num_ports, 1 ≤ i ∧ i < prob.num_ports :=
    fun i hi => (mem_for_range _ _ _).1 hi
  have hloop := port_duals_loop_eq prob values hlen hd hvals (for_range 1 prob.num_ports) []
    hrange (int_seq_nodup _ _) (fun _ _ e he => by simp at he)
  have hinj : ∀ x ∈ for_range 1 prob.num_ports, ∀ y ∈ for_range 1 prob.num_ports,
      addr_at prob x = addr_at prob y → x = y := by
    intro x hx y hy hxy
    obtain ⟨hx1, hx2⟩ := hrange x hx
    obtain ⟨hy1, hy2⟩ := hrange y hy
    obtain ⟨p, hp⟩ := vec_at_ok_of_lt prob.ports x (by omega) (by omega)
    obtain ⟨q, hq⟩ := vec_at_ok_of_lt prob.ports y (by omega) (by omega)
    have h1 : addr_at prob x = p.addr := by simp [addr_at, hp]
    have h2 : addr_at prob y = q.addr := by simp [addr_at, hq]
    exact ports_addr_inj prob hd x y p q hp hq (by rw [← h1, ← h2]; exact hxy)
  have hkeys : (((for_range 1 prob.num_ports).map
      (fun i => (addr_at prob i, dual_pair_at prob values i))).map Prod.fst).Nodup := by
    rw [List.map_map]
    exact List.Nodup.map_on hinj (int_seq_nodup _ _)
  refine ⟨(for_range 1 prob.num_ports).map
    (fun i => (addr_at prob i, dual_pair_at prob values i)), ?_, ?_, ?_, ?_⟩
  · unfold extract_port_duals
    rw [hhalf, hloop]
    simp
  · rw [List.length_map, for_range_length]
    omega
  · intro p0 hp0
    apply find_none_of_no_key
    intro e he
    rw [List.mem_map] at he
    obtain ⟨i, hi, hie⟩ := he
    obtain ⟨hi1, hi2⟩ := hrange i hi
    obtain ⟨p, hp⟩ := vec_at_ok_of_lt prob.ports i (by omega) (by omega)
    have h1 : addr_at prob i = p.addr := by simp [addr_at, hp]
    rw [← hie]
    simp only [h1]
    intro hpp
    have := ports_addr_inj prob hd i 0 p p0 hp hp0 hpp
    omega
  · intro i hi1 hi2
    obtain ⟨p, hp⟩ := vec_at_ok_of_lt prob.ports i (by omega) (by omega)
    obtain ⟨a, ha⟩ := vec_at_ok_of_lt values (i - 1) (by omega) (by omega)
    obtain ⟨b, hb⟩ := vec_at_ok_of_lt values (prob.num_ports - 1 + i - 1) (by omega) (by omega)
    have haddr : addr_at prob i = p.addr := by simp [addr_at, hp]
    have hpair : dual_pair_at prob values i = (a, b) := by simp [dual_pair_at, ha, hb]
    have himem : i ∈ for_range 1 prob.num_ports := (mem_for_range _ _ _).2 ⟨hi1, hi2⟩
    have hbody : ∀ rc ∈ port_coeff_indices prob.num_ports i,
        rc ∈ port_coeff_loop prob.num_ports := by
      intro rc hrc
      unfold port_coeff_loop
      rw [List.mem_flatMap]
      exact ⟨i, himem, hrc⟩
    refine ⟨p, a, b, hp, ?_, hbody _ (by simp [port_coeff_indices]), ha,
      hbody _ (by simp [port_coeff_indices]), hb⟩
    apply find_of_mem_of_nodup_keys _ _ _ hkeys
    rw [List.mem_map]
    exact ⟨i, himem, by rw [haddr, hpair]⟩

/-! ## Failure of the solver call -/

theorem vec_at_error {α : Type} (v : List α) (i : Int) (e : Failure)
    (h : vec_at v i = .error e) : e = .out_of_bounds := by
  unfold vec_at at h
  by_cases h0 : 0 ≤ i
  · simp only [h0, if_true] at h
    cases hg : v.get? i.toNat with
    | none => rw [hg] at h; simp at h; exact h.symm
    | some a => rw [hg] at h; simp at h
  · simp only [h0, if_false] at h
    simp at h
    exact h.symm

theorem port_duals_loop_error (prob : ProblemData) (values : List ℚ) :
    ∀ (is : List Int) (m0 : PtrMap (ℚ × ℚ)) (e : Failure),
      port_duals_loop prob values is m0 = .error e → e = .out_of_bounds := by
  intro is
  induction is with
  | nil => intro m0 e h; simp [port_duals_loop] at h
  | cons i rest ih =>
    intro m0 e h
    unfold port_duals_loop at h
    cases hp : vec_at prob.ports i with
    | error e1 =>
      simp only [hp] at h
      cases h
      exact vec_at_error _ _ _ hp
    | ok p =>
      cases ha : vec_at values (i - 1) with
      | error e1 =>
        simp only [hp, ha] at h
        cases h
        exact vec_at_error _ _ _ ha
      | ok a =>
        cases hb : vec_at values (prob.num_ports - 1 + i - 1) with
        | error e1 =>
          simp only [hp, ha, hb] at h
          cases h
          exact vec_at_error _ _ _ hb
        | ok b =>
          simp only [hp, ha, hb] at h
          exact ih _ e h

theorem vc_duals_loop_error (prob : ProblemData) (values : List ℚ) :
    ∀ (is : List Int) (m0 : PtrMap ℚ) (e : Failure),
      vc_duals_loop prob values is m0 = .error e → e = .out_of_bounds := by
  intro is
  induction is with
  | nil => intro m0 e h; simp [vc_duals_loop] at h
  | cons i rest ih =>
    intro m0 e h
    unfold vc_duals_loop at h
    cases hp : vec_at prob.vessel_classes i with
    | error e1 =>
      simp only [hp] at h
      cases h
      exact vec_at_error _ _ _ hp
    | ok p =>
      cases ha : vec_at values i with
      | error e1 =>
        simp only [hp, ha] at h
        cases h
        exact vec_at_error _ _ _ ha
      | ok a =>
        simp only [hp, ha] at h
        exact ih _ e h

theorem solve_infeasible_iff (prob : ProblemData) (oracle : IloModel → CplexOutcome)
    (pool : ColumnPool) (eq : List PortWithType) (linear : Bool) (m : IloModel)
    (h : build_model prob pool eq linear = .ok m) :
    solve prob oracle pool eq linear = .error (.runtime_error "Infeasible problem!") ↔
      ((∃ c, oracle m = .returned false c) ∨ (∃ e, oracle m = .raised e)) := by
  unfold solve
  simp only [h]
  cases ho : oracle m with
  | raised e => simp
  | returned solved c => cases solved <;> simp

theorem solve_ok_iff (prob : ProblemData) (oracle : IloModel → CplexOutcome)
    (pool : ColumnPool) (eq : List PortWithType) (linear : Bool) (m : IloModel)
    (h : build_model prob pool eq linear = .ok m) (d : IloData) :
    solve prob oracle pool eq linear = .ok d ↔
      (oracle m = .returned true d.cplex ∧
        d = IloData.mk m.var m.port_constr m.vc_constr d.cplex) := by
  unfold solve
  simp only [h]
  cases ho : oracle m with
  | raised e => simp
  | returned solved c =>
    cases solved
    · simp
    · simp only [Bool.not_true, Bool.false_eq_true, if_false, Except.ok.injEq,
        CplexOutcome.returned.injEq, true_and]
      constructor
      · intro hd; subst hd; exact ⟨rfl, rfl⟩
      · rintro ⟨hc, hd⟩; rw [hd, hc]

/-- C4: once the model is built, `MPSolver::solve` fails with the error
"Infeasible problem!" iff the solver call returns not-solved or raises an exception (the
exception is turned into that error); it returns a value exactly when the solver call
returned solved, and then hands back that solver state; `solve_lp` and `solve_mip` fail
with "Infeasible problem!" in exactly the same cases and return no solution then. -/
theorem C4_infeasible_iff_solver_fails (prob : ProblemData)
    (oracle : IloModel → CplexOutcome) (pool : ColumnPool) (eq : List PortWithType)
    (linear : Bool) (m : IloModel) (h : build_model prob pool eq linear = .ok m) :
    (solve prob oracle pool eq linear = .error (.runtime_error "Infeasible problem!") ↔
      ((∃ c, oracle m = .returned false c) ∨ (∃ e, oracle m = .raised e))) ∧
    (∀ d, solve prob oracle pool eq linear = .ok d → oracle m = .returned true d.cplex) ∧
    (∀ c, oracle m = .returned true c →
      solve prob oracle pool eq linear =
        .ok (IloData.mk m.var m.port_constr m.vc_constr c)) ∧
    (∀ m1, build_model prob pool eq true = .ok m1 →
      ((solve_lp prob oracle pool eq = .error (.runtime_error "Infeasible problem!") ↔
        ((∃ c, oracle m1 = .returned false c) ∨ (∃ e, oracle m1 = .raised e))) ∧
       (∀ sol, solve_lp prob oracle pool eq = .ok sol →
          ∃ c, oracle m1 = .returned true c ∧ sol.obj_value = c.obj_value))) ∧
    (∀ m0, build_model prob pool eq false = .ok m0 →
      ((solve_mip prob oracle pool eq = .error (.runtime_error "Infeasible problem!") ↔
        ((∃ c, oracle m0 = .returned false c) ∨ (∃ e, oracle m0 = .raised e))) ∧
       (∀ sol, solve_mip prob oracle pool eq = .ok sol →
          ∃ c, oracle m0 = .returned true c ∧ sol.obj_value = c.obj_value))) := by
  refine ⟨solve_infeasible_iff prob oracle pool eq linear m h,
    fun d hd => ((solve_ok_iff prob oracle pool eq linear m h d).1 hd).1,
    fun c hc => (solve_ok_iff prob oracle pool eq linear m h _).2 ⟨hc, rfl⟩, ?_, ?_⟩
  · intro m1 h1
    have hiff := solve_infeasible_iff prob oracle pool eq true m1 h1
    constructor
    · rw [← hiff]
      unfold solve_lp
      cases hs : solve prob oracle pool eq true with
      | error e => simp
      | ok d =>
        simp only
        cases hp : extract_port_duals prob d.cplex.port_duals with
        | error e =>
          have := port_duals_loop_error prob _ _ _ e hp
          subst this
          simp
        | ok pd =>
          simp only
          cases hv : vc_duals_loop prob d.cplex.vc_duals
              (for_range 0 d.cplex.vc_duals.length) [] with
          | error e =>
            have := vc_duals_loop_error prob _ _ _ e hv
            subst this
            simp
          | ok vd => simp
    · intro sol hsol
      unfold solve_lp at hsol
      cases hs : solve prob oracle pool eq true with
      | error e => simp [hs] at hsol
      | ok d =>
        have hor := ((solve_ok_iff prob oracle pool eq true m1 h1 d).1 hs).1
        simp only [hs] at hsol
        cases hp : extract_port_duals prob d.cplex.port_duals with
        | error e => simp [hp] at hsol
        | ok pd =>
          simp only [hp] at hsol
          cases hv : vc_duals_loop prob d.cplex.vc_duals
              (for_range 0 d.cplex.vc_duals.length) [] with
          | error e => simp [hv] at hsol
          | ok vd =>
            simp only [hv, Except.ok.injEq] at hsol
            exact ⟨d.cplex, hor, by rw [← hsol]⟩
  · intro m0 h0
    have hiff := solve_infeasible_iff prob oracle pool eq false m0 h0
    constructor
    · rw [← hiff]
      unfold solve_mip
      cases hs : solve prob oracle pool eq false with
      | error e => simp
      | ok d => simp
    · intro sol hsol
      unfold solve_mip at hsol
      cases hs : solve prob oracle pool eq false with
      | error e => simp [hs] at hsol
      | ok d =>
        have hor := ((solve_ok_iff prob oracle pool eq false m0 h0 d).1 hs).1
        simp only [hs, Except.ok.injEq] at hsol
        exact ⟨d.cplex, hor, by rw [← hsol]⟩

theorem C4_infeasible_iff_solver_fails_witness :
    solve two_port_problem (fun _ => CplexOutcome.raised "CPLEX Error 1001: Out of memory")
        example_pool [] true = .error (.runtime_error "Infeasible problem!") ∧
    solve_lp two_port_problem (fun _ => CplexOutcome.raised "CPLEX Error 1001: Out of memory")
        example_pool [] = .error (.runtime_error "Infeasible problem!") :=
  ⟨(C4_infeasible_iff_solver_fails two_port_problem _ example_pool [] true _
      (build_model_example_unmarked true)).1.2 (Or.inr ⟨_, rfl⟩),
   ((C4_infeasible_iff_solver_fails two_port_problem _ example_pool [] true _
      (build_model_example_unmarked true)).2.2.2.1 _ (build_model_example_unmarked true)).1.2
      (Or.inr ⟨_, rfl⟩)⟩


/-! ## Equality tightening -/

theorem holds_of_weaker (r r2 : IloRange) (v : ℚ) (hw : r.weaker r2) (h : r2.holds v) :
    r.holds v := by
  obtain ⟨hub, hlb⟩ := hw
  unfold IloRange.holds at h ⊢
  refine ⟨?_, hub ▸ h.2⟩
  rcases hlb with hl | hl
  · rw [hl]; exact h.1
  · rw [hl]; trivial

theorem should_row_mono (prob : ProblemData) (r : Int) (eq eq2 : List PortWithType)
    (hsub : ∀ y ∈ eq, y ∈ eq2) (b2 : Bool)
    (h : should_row_have_equality prob r eq2 = .ok b2) :
    ∃ b, should_row_have_equality prob r eq = .ok b ∧ (b = true → b2 = true) := by
  unfold should_row_have_equality at h ⊢
  by_cases h1 : r ≥ 1
  · by_cases h2 : r ≤ 2 * (prob.num_ports - 1)
    · simp only [h1, h2, not_true_eq_false, if_false] at h ⊢
      cases hp : vec_at prob.ports
          (if r - 1 > prob.num_ports then (PortType.DELIVERY, r - 1 - (prob.num_ports - 1))
            else (PortType.PICKUP, r - 1)).2 with
      | error e => rw [hp] at h; simp at h
      | ok port =>
        rw [hp] at h
        simp only [Except.ok.injEq] at h
        refine ⟨_, rfl, ?_⟩
        intro hb
        rw [← h]
        simp only [decide_eq_true_eq] at hb ⊢
        exact hsub _ hb
    · simp [h1, h2] at h
  · simp [h1] at h

theorem port_constr_loop_mono (prob : ProblemData) (eq eq2 : List PortWithType)
    (hsub : ∀ y ∈ eq, y ∈ eq2) :
    ∀ (is : List Int) (rows2 : List IloRange), port_constr_loop prob eq2 is = .ok rows2 →
      ∃ rows, port_constr_loop prob eq is = .ok rows ∧
        List.Forall₂ IloRange.weaker rows rows2 := by
  intro is
  induction is with
  | nil =>
    intro rows2 h
    simp only [port_constr_loop, Except.ok.injEq] at h
    subst h
    exact ⟨[], rfl, List.Forall₂.nil⟩
  | cons i rest ih =>
    intro rows2 h
    unfold port_constr_loop at h
    cases hb : should_row_have_equality prob i eq2 with
    | error e => simp [hb] at h
    | ok b2 =>
      cases hr : port_constr_loop prob eq2 rest with
      | error e => simp [hb, hr] at h
      | ok rest2 =>
        simp only [hb, hr, Except.ok.injEq] at h
        subst h
        obtain ⟨b, hb1, hbb⟩ := should_row_mono prob i eq eq2 hsub b2 hb
        obtain ⟨rows, hrows, hf⟩ := ih rest2 hr
        refine ⟨IloRange.mk (if b then IloNum.fin 1 else IloNum.neg_infinity) (IloNum.fin 1)
          :: rows, by simp only [port_constr_loop, hb1, hrows], List.Forall₂.cons ?_ hf⟩
        refine ⟨rfl, ?_⟩
        cases b with
        | false => exact Or.inr rfl
        | true => rw [hbb rfl]; exact Or.inl rfl

theorem vec_at_congr_length (pc pc2 : List IloRange) (hlen : pc.length = pc2.length)
    (i : Int) :
    (∃ a, vec_at pc i = .ok a) ↔ (∃ a, vec_at pc2 i = .ok a) := by
  constructor
  · rintro ⟨a, ha⟩
    obtain ⟨h0, h1⟩ := vec_at_lt_of_ok _ _ _ ha
    exact vec_at_ok_of_lt _ _ h0 (by omega)
  · rintro ⟨a, ha⟩
    obtain ⟨h0, h1⟩ := vec_at_lt_of_ok _ _ _ ha
    exact vec_at_ok_of_lt _ _ h0 (by omega)

theorem add_port_entry_congr (pc pc2 : List IloRange) (hlen : pc.length = pc2.length)
    (col : Column) (rc : Int × Int) :
    add_port_entry pc col rc = add_port_entry pc2 col rc := by
  unfold add_port_entry
  cases h1 : vec_at pc rc.1 with
  | ok a =>
    obtain ⟨a2, h2⟩ := (vec_at_congr_length pc pc2 hlen rc.1).1 ⟨a, h1⟩
    rw [h2]
  | error e =>
    cases h2 : vec_at pc2 rc.1 with
    | ok a2 =>
      obtain ⟨a, ha⟩ := (vec_at_congr_length pc pc2 hlen rc.1).2 ⟨a2, h2⟩
      rw [ha] at h1
      simp at h1
    | error e2 =>
      rw [vec_at_error _ _ _ h1, vec_at_error _ _ _ h2]

theorem add_port_entries_congr (pc pc2 : List IloRange) (hlen : pc.length = pc2.length)
    (col : Column) (idxs : List (Int × Int)) :
    add_port_entries pc col idxs = add_port_entries pc2 col idxs := by
  induction idxs with
  | nil => rfl
  | cons rc rest ih =>
    simp only [add_port_entries, add_port_entry_congr pc pc2 hlen col rc, ih]

theorem build_vars_congr (prob : ProblemData) (pc pc2 vc : List IloRange)
    (hlen : pc.length = pc2.length) (linear : Bool) (pool : List Column) :
    ∀ n, build_vars prob pc vc linear n pool = build_vars prob pc2 vc linear n pool := by
  induction pool with
  | nil => intro n; rfl
  | cons col rest ih =>
    intro n
    simp only [build_vars, build_column, add_port_entries_congr pc pc2 hlen col, ih (n + 1)]

theorem feasible_of_weaker (c : ℚ) (var : List IloNumVar) (pc pc2 vc : List IloRange)
    (hw : List.Forall₂ IloRange.weaker pc pc2) (theta : List ℚ)
    (h : feasible (IloModel.mk c var pc2 vc) theta) : feasible (IloModel.mk c var pc vc) theta := by
  obtain ⟨h1, h2, h3, h4⟩ := h
  refine ⟨h1, h2, ?_, h4⟩
  intro k hk
  have hk2 : k < pc2.length := by
    have := hw.length_eq
    simp only at hk
    omega
  have hrel := hw.get hk hk2
  exact holds_of_weaker _ _ _ hrel (h3 k hk2)

theorem example_model_feasible (type : VarType) :
    feasible (example_model (.fin 1) .neg_infinity type) [1] := by
  refine ⟨rfl, ?_, ?_, ?_⟩
  · intro j h h2
    have hj : j = 0 := by simp [example_model] at h; omega
    subst hj
    simp [example_model, IloNumVar.admits, IloNum.below, IloNum.above]
  · intro k h
    have hk : k = 0 ∨ k = 1 := by simp [example_model] at h; omega
    rcases hk with hk | hk <;> subst hk <;>
      simp [example_model, IloRange.holds, IloNum.below, IloNum.above, port_activity, entry_sum]
  · intro k h
    have hk : k = 0 := by simp [example_model] at h; omega
    subst hk
    simp [example_model, IloRange.holds, IloNum.below, IloNum.above, vc_activity, entry_sum]

/-- C3: if `MPSolver::solve` builds a model for the equality set `eq` extended by `x`, it
builds one for `eq` alone with the same objective function, variables and vessel-class
rows; every assignment feasible for the tightened model is feasible for the untightened
one, so an optimal value of the untightened model is never above the objective of any
assignment feasible for the tightened model, for continuous and for binary variables. -/
theorem C3_equality_tightening_monotone (prob : ProblemData) (pool : ColumnPool)
    (eq : List PortWithType) (x : PortWithType) (linear : Bool) (m2 : IloModel)
    (h : build_model prob pool (eq ++ [x]) linear = .ok m2) :
    ∃ m, build_model prob pool eq linear = .ok m ∧
      m.obj_constant = m2.obj_constant ∧ m.var = m2.var ∧ m.vc_constr = m2.vc_constr ∧
      (∀ theta, objective_value m theta = objective_value m2 theta) ∧
      (∀ theta, feasible m2 theta → feasible m theta) ∧
      (∀ theta theta2, feasible m theta →
        (∀ t, feasible m t → objective_value m theta ≤ objective_value m t) →
        feasible m2 theta2 → objective_value m theta ≤ objective_value m2 theta2) := by
  obtain ⟨pc2, vc, var, hpc2, hvc, hvar, hm2⟩ :=
    (build_model_ok_iff prob pool (eq ++ [x]) linear m2).1 h
  obtain ⟨pc, hpc, hw⟩ := port_constr_loop_mono prob eq (eq ++ [x])
    (fun y hy => List.mem_append_left _ hy) _ pc2 hpc2
  have hlen : pc.length = pc2.length := hw.length_eq
  have hvar1 : build_vars prob pc vc linear 0 pool = .ok var := by
    rw [build_vars_congr prob pc pc2 vc hlen linear pool 0]; exact hvar
  have hm : build_model prob pool eq linear = .ok (IloModel.mk (all_penalties prob) var pc vc) :=
    (build_model_ok_iff prob pool eq linear _).2 ⟨pc, vc, var, hpc, hvc, hvar1, rfl⟩
  have hfeas : ∀ theta, feasible m2 theta →
      feasible (IloModel.mk (all_penalties prob) var pc vc) theta := by
    intro theta hf
    rw [hm2] at hf
    exact feasible_of_weaker _ _ _ _ _ hw theta hf
  have hobj : ∀ theta, objective_value (IloModel.mk (all_penalties prob) var pc vc) theta =
      objective_value m2 theta := by
    intro theta; rw [hm2]; rfl
  refine ⟨_, hm, by rw [hm2], by rw [hm2], by rw [hm2], hobj, hfeas, ?_⟩
  intro theta theta2 _ hopt hf2
  rw [← hobj theta2]
  exact hopt theta2 (hfeas theta2 hf2)

theorem C3_equality_tightening_monotone_witness :
    feasible (example_model (.fin 1) .neg_infinity .Float) [1] ∧
    (∃ m, build_model two_port_problem example_pool [] true = .ok m ∧ feasible m [1] ∧
      objective_value m [1] =
        objective_value (example_model (.fin 1) .neg_infinity .Float) [1]) ∧
    feasible (example_model (.fin 1) .neg_infinity .Bool) [1] ∧
    (∃ m, build_model two_port_problem example_pool [] false = .ok m ∧ feasible m [1] ∧
      objective_value m [1] =
        objective_value (example_model (.fin 1) .neg_infinity .Bool) [1]) := by
  obtain ⟨m, hm, _, _, _, hobj, hfeas, _⟩ :=
    C3_equality_tightening_monotone two_port_problem example_pool [] (10, PortType.PICKUP)
      true (example_model (.fin 1) .neg_infinity .Float) (build_model_example_marked true)
  obtain ⟨m0, hm0, _, _, _, hobj0, hfeas0, _⟩ :=
    C3_equality_tightening_monotone two_port_problem example_pool [] (10, PortType.PICKUP)
      false (example_model (.fin 1) .neg_infinity .Bool) (build_model_example_marked false)
  exact ⟨example_model_feasible _, ⟨m, hm, hfeas [1] (example_model_feasible _), hobj [1]⟩,
    example_model_feasible _, ⟨m0, hm0, hfeas0 [1] (example_model_feasible _), hobj0 [1]⟩⟩

/-! ## Definedness of the model construction, and what `solve_lp` returns -/

theorem vc_constr_loop_defined (prob : ProblemData) :
    ∀ is : List Int, (∀ i ∈ is, 0 ≤ i ∧ i < (prob.vessel_classes.length : Int)) →
      ∃ rows, vc_constr_loop prob is = .ok rows ∧ rows.length = is.length := by
  intro is
  induction is with
  | nil => intro _; exact ⟨[], rfl, rfl⟩
  | cons i rest ih =>
    intro h
    obtain ⟨h0, h1⟩ := h i (List.mem_cons_self _ _)
    obtain ⟨vc, hvc⟩ := vec_at_ok_of_lt prob.vessel_classes i h0 h1
    obtain ⟨rows, hrows, hl⟩ := ih (fun j hj => h j (List.mem_cons_of_mem _ hj))
    exact ⟨IloRange.mk IloNum.neg_infinity (IloNum.fin vc.num_vessels) :: rows,
      by simp only [vc_constr_loop, hvc, hrows], by simp [hl]⟩

theorem vc_entries_loop_defined (vc_constr : List IloRange) (col : Column) :
    ∀ is : List Int,
      (∀ i ∈ is, 0 ≤ i ∧ i < (vc_constr.length : Int) ∧ i < (col.vc_coeff.length : Int)) →
      ∃ entries, vc_entries_loop vc_constr col is = .ok entries := by
  intro is
  induction is with
  | nil => intro _; exact ⟨[], rfl⟩
  | cons i rest ih =>
    intro h
    obtain ⟨h0, h1, h2⟩ := h i (List.mem_cons_self _ _)
    obtain ⟨r, hr⟩ := vec_at_ok_of_lt vc_constr i h0 h1
    obtain ⟨c, hc⟩ := vec_at_ok_of_lt col.vc_coeff i h0 h2
    obtain ⟨entries, he⟩ := ih (fun j hj => h j (List.mem_cons_of_mem _ hj))
    exact ⟨(i, c) :: entries, by simp only [vc_entries_loop, hr, hc, he]⟩

theorem port_coeff_loop_range (np : Int) (h : 1 ≤ np) :
    ∀ rc ∈ port_coeff_loop np, rc.2 = rc.1 ∧ 0 ≤ rc.1 ∧ rc.1 < 2 * (np - 1) := by
  intro rc hrc
  have := ((port_coeff_loop_perm np h).mem_iff).1 hrc
  rw [List.mem_map] at this
  obtain ⟨k, hk, hkr⟩ := this
  rw [mem_for_range] at hk
  rw [← hkr]
  exact ⟨rfl, hk.1, hk.2⟩

theorem build_vars_defined (prob : ProblemData) (pc vc : List IloRange) (linear : Bool)
    (h1 : 1 ≤ prob.num_ports) (hpc : (pc.length : Int) = 2 * (prob.num_ports - 1))
    (hvc : prob.num_vessel_classes ≤ (vc.length : Int)) :
    ∀ (pool : List Column) (n : Nat),
      (∀ col ∈ pool, 2 * (prob.num_ports - 1) ≤ (col.port_coeff.length : Int) ∧
        prob.num_vessel_classes ≤ (col.vc_coeff.length : Int)) →
      ∃ var, build_vars prob pc vc linear n pool = .ok var ∧ var.length = pool.length := by
  intro pool
  induction pool with
  | nil => intro n _; exact ⟨[], rfl, rfl⟩
  | cons col rest ih =>
    intro n h
    obtain ⟨hc1, hc2⟩ := h col (List.mem_cons_self _ _)
    obtain ⟨pe, hpe, _⟩ := add_port_entries_ok pc col (port_coeff_loop prob.num_ports) (by
      intro rc hrc
      obtain ⟨hd, h0, hlt⟩ := port_coeff_loop_range prob.num_ports h1 rc hrc
      omega)
    obtain ⟨ve, hve⟩ := vc_entries_loop_defined vc col (for_range 0 prob.num_vessel_classes) (by
      intro i hi
      rw [mem_for_range] at hi
      omega)
    obtain ⟨vs, hvs, hl⟩ := ih (n + 1) (fun c hc => h c (List.mem_cons_of_mem _ hc))
    exact ⟨IloNumVar.mk (IloNumColumn.mk col.obj_coeff pe ve) (IloNum.fin 0) IloNum.infinity
        (if linear then VarType.Float else VarType.Bool) ("theta_" ++ toString n) :: vs,
      by simp only [build_vars, build_column, hpe, hve, hvs], by simp [hl]⟩

theorem build_model_defined (prob : ProblemData) (pool : ColumnPool)
    (eq : List PortWithType) (linear : Bool) (h1 : 1 ≤ prob.num_ports)
    (hports : 2 * (prob.num_ports - 1) ≤ (prob.ports.length : Int))
    (hvcs : prob.num_vessel_classes ≤ (prob.vessel_classes.length : Int))
    (hcols : ∀ col ∈ pool, 2 * (prob.num_ports - 1) ≤ (col.port_coeff.length : Int) ∧
      prob.num_vessel_classes ≤ (col.vc_coeff.length : Int)) :
    ∃ m, build_model prob pool eq linear = .ok m ∧ m.var.length = pool.length := by
  obtain ⟨pc, hpc⟩ := build_port_constr_defined prob eq hports
  have hpcl := build_port_constr_length prob eq pc hpc
  obtain ⟨vc, hvc, hvl⟩ := vc_constr_loop_defined prob (for_range 0 prob.num_vessel_classes) (by
    intro i hi
    rw [mem_for_range] at hi
    omega)
  rw [for_range_length] at hvl
  obtain ⟨var, hvar, hl⟩ := build_vars_defined prob pc vc linear h1 (by omega) (by omega)
    pool 0 hcols
  exact ⟨IloModel.mk (all_penalties prob) var pc vc,
    (build_model_ok_iff prob pool eq linear _).2 ⟨pc, vc, var, hpc, hvc, hvar, rfl⟩, hl⟩

theorem solve_lp_port_duals (prob : ProblemData) (oracle : IloModel → CplexOutcome)
    (pool : ColumnPool) (eq : List PortWithType) (m : IloModel)
    (h : build_model prob pool eq true = .ok m) (sol : MPLinearSolution)
    (hsol : solve_lp prob oracle pool eq = .ok sol) :
    ∃ c, oracle m = .returned true c ∧ sol.obj_value = c.obj_value ∧
      sol.var_values = c.values ∧ extract_port_duals prob c.port_duals = .ok sol.port_duals := by
  unfold solve_lp at hsol
  cases hs : solve prob oracle pool eq true with
  | error e => simp [hs] at hsol
  | ok d =>
    have hor := ((solve_ok_iff prob oracle pool eq true m h d).1 hs).1
    simp only [hs] at hsol
    cases hp : extract_port_duals prob d.cplex.port_duals with
    | error e => simp [hp] at hsol
    | ok pd =>
      simp only [hp] at hsol
      cases hv : vc_duals_loop prob d.cplex.vc_duals
          (for_range 0 d.cplex.vc_duals.length) [] with
      | error e => simp [hv] at hsol
      | ok vd =>
        simp only [hv, Except.ok.injEq] at hsol
        refine ⟨d.cplex, hor, ?_, ?_, ?_⟩
        · rw [← hsol]
        · rw [← hsol]
        · rw [← hsol]; exact hp

/-! ## Rows and columns of a built model; the map returned by `solve_lp` -/

theorem add_port_entries_rel (pc : List IloRange) (col : Column) :
    ∀ (idxs : List (Int × Int)) (entries : List (Int × ℚ)),
      add_port_entries pc col idxs = .ok entries →
      List.Forall₂ (fun rc e => e.1 = rc.1 ∧ vec_at col.port_coeff rc.2 = .ok e.2)
        idxs entries := by
  intro idxs
  induction idxs with
  | nil =>
    intro entries h
    simp only [add_port_entries, Except.ok.injEq] at h
    subst h
    exact List.Forall₂.nil
  | cons rc rest ih =>
    intro entries h
    unfold add_port_entries add_port_entry at h
    cases hr : vec_at pc rc.1 with
    | error e => simp [hr] at h
    | ok row =>
      cases hc : vec_at col.port_coeff rc.2 with
      | error e => simp [hr, hc] at h
      | ok c =>
        cases hrest : add_port_entries pc col rest with
        | error e => simp [hr, hc, hrest] at h
        | ok es =>
          simp only [hr, hc, hrest, Except.ok.injEq] at h
          subst h
          exact List.Forall₂.cons ⟨rfl, hc⟩ (ih es hrest)

theorem entries_coeff_defined (col : Column) (idxs : List (Int × Int))
    (entries : List (Int × ℚ))
    (hf : List.Forall₂ (fun rc e => e.1 = rc.1 ∧ vec_at col.port_coeff rc.2 = .ok e.2)
      idxs entries) :
    ∀ rc ∈ idxs, ∃ c, vec_at col.port_coeff rc.2 = .ok c := by
  induction hf with
  | nil => intro rc hrc; simp at hrc
  | @cons rc0 e rest erest h _ ih =>
    intro rc hrc
    rcases List.mem_cons.1 hrc with hh | hh
    · subst hh; exact ⟨e.2, h.2⟩
    · exact ih rc hh

theorem build_vars_rel (prob : ProblemData) (pc vc : List IloRange) (linear : Bool) :
    ∀ (pool : List Column) (n : Nat) (vars : List IloNumVar),
      build_vars prob pc vc linear n pool = .ok vars →
      List.Forall₂ (fun col v =>
        add_port_entries pc col (port_coeff_loop prob.num_ports) = .ok v.column.port_entries ∧
        v.column.obj_coeff = col.obj_coeff) pool vars := by
  intro pool
  induction pool with
  | nil =>
    intro n vars h
    simp only [build_vars, Except.ok.injEq] at h
    subst h
    exact List.Forall₂.nil
  | cons col rest ih =>
    intro n vars h
    unfold build_vars build_column at h
    cases hpe : add_port_entries pc col (port_coeff_loop prob.num_ports) with
    | error e => simp [hpe] at h
    | ok pe =>
      cases hve : vc_entries_loop vc col (for_range 0 prob.num_vessel_classes) with
      | error e => simp [hpe, hve] at h
      | ok ve =>
        cases hvs : build_vars prob pc vc linear (n + 1) rest with
        | error e => simp [hpe, hve, hvs] at h
        | ok vs =>
          simp only [hpe, hve, hvs, Except.ok.injEq] at h
          subst h
          exact List.Forall₂.cons ⟨hpe, rfl⟩ (ih (n + 1) vs hvs)

/-- In every model built for `n >= 1` ports there are `2(n-1)` port rows and one variable
per pool column, and the variable of a column carries on each port row `k` exactly the one
entry `port_coeff[k]` of that column. -/
theorem built_model_rows_and_columns (prob : ProblemData) (pool : ColumnPool)
    (eq : List PortWithType) (linear : Bool) (m : IloModel)
    (h : build_model prob pool eq linear = .ok m) (h1 : 1 ≤ prob.num_ports) :
    (m.port_constr.length : Int) = 2 * (prob.num_ports - 1) ∧
    m.var.length = pool.length ∧
    (∀ (j : Nat) (col : Column) (v : IloNumVar), pool.get? j = some col →
      m.var.get? j = some v → ∀ k : Int, 0 ≤ k → k < 2 * (prob.num_ports - 1) →
        ∃ c, vec_at col.port_coeff k = .ok c ∧
          v.column.port_entries.filter (fun e => decide (e.1 = k)) = [(k, c)]) := by
  obtain ⟨pc, vc, var, hpc, _, hvar, hm⟩ := (build_model_ok_iff prob pool eq linear m).1 h
  subst hm
  have hrel := build_vars_rel prob pc vc linear pool 0 var hvar
  have hlen := build_port_constr_length prob eq pc hpc
  refine ⟨by simp only; omega, hrel.length_eq.symm, ?_⟩
  intro j col v hcol hv k hk0 hk1
  simp only at hv
  obtain ⟨hj1, hcolj⟩ := List.get?_eq_some.1 hcol
  obtain ⟨hj2, hvj⟩ := List.get?_eq_some.1 hv
  have hjrel := hrel.get hj1 hj2
  rw [hcolj, hvj] at hjrel
  have hf := add_port_entries_rel pc col _ _ hjrel.1
  have hperm := port_coeff_loop_perm prob.num_ports h1
  have hperm1 : List.Perm ((port_coeff_loop prob.num_ports).map Prod.fst)
      (for_range 0 (2 * (prob.num_ports - 1))) := by
    have := hperm.map Prod.fst
    simpa [List.map_map, Function.comp_def] using this
  have hdiag : ∀ rc ∈ port_coeff_loop prob.num_ports, rc.2 = rc.1 :=
    fun rc hrc => (port_coeff_loop_range prob.num_ports h1 rc hrc).1
  have hkmem : (k, k) ∈ port_coeff_loop prob.num_ports := by
    rw [hperm.mem_iff, List.mem_map]
    exact ⟨k, (mem_for_range _ _ _).2 ⟨hk0, hk1⟩, rfl⟩
  have hc : ∃ c, vec_at col.port_coeff k = .ok c := by
    have hall : ∀ rc ∈ port_coeff_loop prob.num_ports, ∃ c, vec_at col.port_coeff rc.2 = .ok c := by
      intro rc hrc
      obtain ⟨e, he⟩ := entries_coeff_defined col _ _ hf rc hrc
      exact ⟨e, he⟩
    exact hall (k, k) hkmem
  obtain ⟨c, hc⟩ := hc
  refine ⟨c, hc, ?_⟩
  have hnodup : ((port_coeff_loop prob.num_ports).map Prod.fst).Nodup :=
    (hperm1.nodup_iff).2 (int_seq_nodup _ _)
  have hcount : ((port_coeff_loop prob.num_ports).map Prod.fst).count k = 1 :=
    List.count_eq_one_of_mem hnodup (List.mem_map_of_mem Prod.fst hkmem)
  rw [entries_filter_row col _ _ hf hdiag k c hc, hcount]
  rfl

theorem vc_constr_loop_range (prob : ProblemData) :
    ∀ (is : List Int) (rows : List IloRange), vc_constr_loop prob is = .ok rows →
      rows.length = is.length ∧ ∀ i ∈ is, 0 ≤ i ∧ i < (prob.vessel_classes.length : Int) := by
  intro is
  induction is with
  | nil =>
    intro rows h
    simp only [vc_constr_loop, Except.ok.injEq] at h
    subst h
    exact ⟨rfl, fun i hi => by simp at hi⟩
  | cons i rest ih =>
    intro rows h
    unfold vc_constr_loop at h
    cases hv : vec_at prob.vessel_classes i with
    | error e => simp [hv] at h
    | ok vc =>
      cases hr : vc_constr_loop prob rest with
      | error e => simp [hv, hr] at h
      | ok rs =>
        simp only [hv, hr, Except.ok.injEq] at h
        subst h
        obtain ⟨hl, hrange⟩ := ih rs hr
        refine ⟨by simp [hl], ?_⟩
        intro j hj
        rcases List.mem_cons.1 hj with hh | hh
        · subst hh; exact vec_at_lt_of_ok _ _ _ hv
        · exact hrange j hh

theorem vc_duals_loop_defined (prob : ProblemData) (values : List ℚ) :
    ∀ (is : List Int) (m0 : PtrMap ℚ),
      (∀ i ∈ is, 0 ≤ i ∧ i < (prob.vessel_classes.length : Int) ∧ i < (values.length : Int)) →
      ∃ vd, vc_duals_loop prob values is m0 = .ok vd := by
  intro is
  induction is with
  | nil => intro m0 _; exact ⟨m0, rfl⟩
  | cons i rest ih =>
    intro m0 h
    obtain ⟨h0, h1, h2⟩ := h i (List.mem_cons_self _ _)
    obtain ⟨vc, hvc⟩ := vec_at_ok_of_lt prob.vessel_classes i h0 h1
    obtain ⟨d, hd⟩ := vec_at_ok_of_lt values i h0 h2
    obtain ⟨vd, hvd⟩ := ih (m0.emplace vc.addr d) (fun j hj => h j (List.mem_cons_of_mem _ hj))
    exact ⟨vd, by simp only [vc_duals_loop, hvc, hd, hvd]⟩

theorem solve_lp_returns (prob : ProblemData) (oracle : IloModel → CplexOutcome)
    (pool : ColumnPool) (eq : List PortWithType) (m : IloModel) (c : IloCplex)
    (hn : 2 ≤ prob.num_ports) (hlen : prob.num_ports ≤ (prob.ports.length : Int))
    (hd : (prob.ports.map PortPtr.addr).Nodup)
    (hbuild : build_model prob pool eq true = .ok m)
    (hsolved : oracle m = .returned true c)
    (hvals : (c.port_duals.length : Int) = 2 * (prob.num_ports - 1))
    (hvc : c.vc_duals.length = m.vc_constr.length) :
    ∃ sol, solve_lp prob oracle pool eq = .ok sol := by
  have hs := (solve_ok_iff prob oracle pool eq true m hbuild
    (IloData.mk m.var m.port_constr m.vc_constr c)).2 ⟨hsolved, rfl⟩
  obtain ⟨pd, hpd, _⟩ := extract_port_duals_attribution prob c.port_duals hn hlen hd hvals
  obtain ⟨pc, vc, var, _, hvcb, _, hm⟩ := (build_model_ok_iff prob pool eq true m).1 hbuild
  obtain ⟨hvl, hvr⟩ := vc_constr_loop_range prob _ vc hvcb
  rw [for_range_length] at hvl
  have hmvc : m.vc_constr = vc := by rw [hm]
  obtain ⟨vd, hvd⟩ := vc_duals_loop_defined prob c.vc_duals
    (for_range 0 c.vc_duals.length) [] (by
      intro i hi
      rw [mem_for_range] at hi
      have hi2 : i ∈ for_range 0 prob.num_vessel_classes := by
        rw [mem_for_range]
        rw [hmvc] at hvc
        omega
      exact ⟨hi.1, (hvr i hi2).2, hi.2⟩)
  exact ⟨MPLinearSolution.mk c.obj_value pd vd c.values, by
    simp only [solve_lp, hs, hpd, hvd]⟩

/-- C8: for `n >= 2` ports at pairwise distinct addresses, a model built by `solve_lp` and
a solver call that reports it solved with `2(n-1)` port-row duals: `solve_lp` returns (the
solver giving one dual per vessel-class row), and the port-dual map it returns has exactly
`n-1` entries, none for the reference port `ports[0]`, and for every `i` in `1..n-1` maps
`ports[i]` to the pair (dual of row `i-1`, dual of row `(n-1)+(i-1)`), where in the model
every column variable has on row `i-1` exactly its pickup coefficient `port_coeff[i-1]`
and on row `(n-1)+(i-1)` exactly its delivery coefficient `port_coeff[(n-1)+(i-1)]`. -/
theorem C8_port_dual_attribution (prob : ProblemData) (oracle : IloModel → CplexOutcome)
    (pool : ColumnPool) (eq : List PortWithType) (m : IloModel) (c : IloCplex)
    (hn : 2 ≤ prob.num_ports) (hlen : prob.num_ports ≤ (prob.ports.length : Int))
    (hd : (prob.ports.map PortPtr.addr).Nodup)
    (hbuild : build_model prob pool eq true = .ok m)
    (hsolved : oracle m = .returned true c)
    (hvals : (c.port_duals.length : Int) = 2 * (prob.num_ports - 1)) :
    (c.vc_duals.length = m.vc_constr.length →
      ∃ sol, solve_lp prob oracle pool eq = .ok sol) ∧
    (∀ sol, solve_lp prob oracle pool eq = .ok sol →
      (sol.port_duals.length : Int) = prob.num_ports - 1 ∧
      (∀ p0, vec_at prob.ports 0 = .ok p0 → sol.port_duals.find p0.addr = none) ∧
      (∀ i, 1 ≤ i → i < prob.num_ports → ∃ p a b,
        vec_at prob.ports i = .ok p ∧ sol.port_duals.find p.addr = some (a, b) ∧
        vec_at c.port_duals (i - 1) = .ok a ∧
        vec_at c.port_duals (prob.num_ports - 1 + i - 1) = .ok b ∧
        (∀ (j : Nat) (col : Column) (v : IloNumVar), pool.get? j = some col →
          m.var.get? j = some v → ∃ cpu cde,
            vec_at col.port_coeff (i - 1) = .ok cpu ∧
            vec_at col.port_coeff (prob.num_ports - 1 + i - 1) = .ok cde ∧
            v.column.port_entries.filter (fun e => decide (e.1 = i - 1)) = [(i - 1, cpu)] ∧
            v.column.port_entries.filter
                (fun e => decide (e.1 = prob.num_ports - 1 + i - 1)) =
              [(prob.num_ports - 1 + i - 1, cde)]))) := by
  refine ⟨fun hvc => solve_lp_returns prob oracle pool eq m c hn hlen hd hbuild hsolved hvals hvc,
    ?_⟩
  intro sol hsol
  obtain ⟨c1, hc1, _, _, hext⟩ := solve_lp_port_duals prob oracle pool eq m hbuild sol hsol
  have hcc : c1 = c := by
    rw [hsolved] at hc1
    cases hc1
    rfl
  subst hcc
  obtain ⟨pd, hpd, hcount, hzero, hall⟩ :=
    extract_port_duals_attribution prob c1.port_duals hn hlen hd hvals
  have hpdeq : pd = sol.port_duals := by
    rw [hext] at hpd
    exact (Except.ok.inj hpd).symm
  subst hpdeq
  obtain ⟨_, _, hcols⟩ := built_model_rows_and_columns prob pool eq true m hbuild (by omega)
  refine ⟨hcount, hzero, ?_⟩
  intro i hi1 hi2
  obtain ⟨p, a, b, hp, hfind, _, ha, _, hb⟩ := hall i hi1 hi2
  refine ⟨p, a, b, hp, hfind, ha, hb, ?_⟩
  intro j col v hcol hv
  obtain ⟨cpu, hcpu, hfpu⟩ := hcols j col v hcol hv (i - 1) (by omega) (by omega)
  obtain ⟨cde, hcde, hfde⟩ :=
    hcols j col v hcol hv (prob.num_ports - 1 + i - 1) (by omega) (by omega)
  exact ⟨cpu, cde, hcpu, hcde, hfpu, hfde⟩

theorem C8_port_dual_attribution_witness :
    ∃ sol, solve_lp two_port_problem example_oracle example_pool [] = .ok sol ∧
      (sol.port_duals.length : Int) = two_port_problem.num_ports - 1 ∧
      sol.port_duals.find (example_port 10).addr = none ∧
      sol.port_duals.find (example_port 20).addr = some (-2, -3) := by
  have hthm := C8_port_dual_attribution two_port_problem example_oracle example_pool []
    (example_model .neg_infinity .neg_infinity .Float) ⟨9, [-2, -3], [0], [1]⟩
    (by decide) (by decide) (by decide) (build_model_example_unmarked true) rfl rfl
  obtain ⟨sol, hsol⟩ := hthm.1 rfl
  obtain ⟨hcount, hzero, hall⟩ := hthm.2 sol hsol
  obtain ⟨p, a, b, hp, hfind, ha, hb, _⟩ := hall 1 (by decide) (by decide)
  have hp1 : p = example_port 20 := by
    have h1 : vec_at two_port_problem.ports 1 = .ok (example_port 20) := rfl
    rw [h1] at hp
    exact (Except.ok.inj hp).symm
  have ha1 : a = -2 := by
    have h1 : vec_at ([-2, -3] : List ℚ) (1 - 1) = .ok (-2) := rfl
    rw [h1] at ha
    exact (Except.ok.inj ha).symm
  have hb1 : b = -3 := by
    have h1 : vec_at ([-2, -3] : List ℚ) (two_port_problem.num_ports - 1 + 1 - 1) = .ok (-3) := rfl
    rw [h1] at hb
    exact (Except.ok.inj hb).symm
  subst hp1 ha1 hb1
  exact ⟨sol, hsol, hcount, hzero (example_port 10) rfl, hfind⟩

end mvrp
